import Mathlib

/-!
Verification development for the Snapchat memories pipeline
(src/memories_download.py). The Python program is shallowly embedded:
pure helpers become Lean functions, the filesystem effects of each stage
become explicit state passing over small state structures, and the
external collaborators (image codec, HTTP fetch) are modelled by
explicit data. Machine-level concerns (real clocks, inode numbers) are
out of scope; timestamps are modelled by a record of calendar fields,
since the code only ever moves whole timestamps around.
-/

set_option autoImplicit false
set_option synthInstance.maxSize 4096

namespace MD

/-! ## Calendar timestamps -/

/-- Model of a Python naive datetime value with second precision. -/
structure DateTime where
  year : Nat
  month : Nat
  day : Nat
  hour : Nat
  minute : Nat
  second : Nat
deriving DecidableEq, Repr

/-- Digit character for a remainder below ten. -/
def digitChar : Nat → Char
  | 0 => '0' | 1 => '1' | 2 => '2' | 3 => '3' | 4 => '4'
  | 5 => '5' | 6 => '6' | 7 => '7' | 8 => '8' | _ => '9'

/-- Decimal digit list of a positive number, most significant first;
empty for zero. The first argument is structural fuel, always called
with at least the number itself. -/
def decDigitsAux : Nat → Nat → List Char
  | 0, _ => []
  | _ + 1, 0 => []
  | fuel + 1, n + 1 => decDigitsAux fuel ((n + 1) / 10) ++ [digitChar ((n + 1) % 10)]

/-- Decimal digit list of a positive number; empty for zero. -/
def decDigits (n : Nat) : List Char :=
  decDigitsAux n n

/-- Decimal digit list, with zero rendered as a single digit. -/
def decDigitsZ (n : Nat) : List Char :=
  if n == 0 then ['0'] else decDigits n

/-- Decimal rendering of a natural number, as Python str. -/
def natToDec (n : Nat) : String :=
  String.mk (decDigitsZ n)

/-- Zero-padded decimal rendering, as a Python format such as 04d. -/
def padNum (w n : Nat) : String :=
  String.mk (List.replicate (w - (decDigitsZ n).length) '0' ++ decDigitsZ n)

/-- Timestamp rendering used for filenames:
strftime with the year-month-day underscore hour-minute-second layout. -/
def fmtTs (dt : DateTime) : String :=
  padNum 4 dt.year ++ "-" ++ padNum 2 dt.month ++ "-" ++ padNum 2 dt.day ++ "_" ++
    padNum 2 dt.hour ++ "-" ++ padNum 2 dt.minute ++ "-" ++ padNum 2 dt.second

/-! ## Path helpers (pathlib semantics for names, stems and suffixes) -/

/-- Python str.lower, on the character list (the sources only compare
ASCII literals). -/
def strLower (s : String) : String :=
  String.mk (s.toList.map Char.toLower)

/-- Split a character list on a separator character, keeping empty
segments, as Python str.split with an explicit separator. -/
def splitChar (sep : Char) : List Char → List (List Char)
  | [] => [[]]
  | c :: rest =>
    let r := splitChar sep rest
    if c == sep then [] :: r
    else (c :: r.headD []) :: r.tail

/-- Python single-character str.replace. -/
def strReplaceChar (a b : Char) (s : String) : String :=
  String.mk (s.toList.map (fun c => if c == a then b else c))

/-- Components of a path string: empty segments and single dots are not
components, as in pathlib. -/
def pathComponents (s : String) : List String :=
  ((splitChar '/' s.toList).map String.mk).filter (fun c => c != "" && c != ".")

/-- Final path component, as the pathlib name attribute; empty when the
path has no components. -/
def lastComponent (s : String) : String :=
  (pathComponents s).getLastD ""

/-- Index of the last dot of a character list, if any; this models the
rfind of the pathlib suffix computation. -/
def lastDotIdx : List Char → Option Nat
  | [] => none
  | c :: rest =>
    match lastDotIdx rest with
    | some i => some (i + 1)
    | none => if c == '.' then some 0 else none

/-- The pathlib suffix of a path: the part of the final component from
its last dot on, unless that dot is its first or last character. -/
def psuffix (s : String) : String :=
  match lastDotIdx (lastComponent s).toList with
  | some i =>
    if 0 < i && i + 1 < (lastComponent s).toList.length then
      String.mk ((lastComponent s).toList.drop i)
    else ""
  | none => ""

/-- The pathlib stem of a path: final component minus its suffix. -/
def pstem (s : String) : String :=
  String.mk ((lastComponent s).toList.take
    ((lastComponent s).toList.length - (psuffix s).length))

/-- Python str.endswith: suffix test on the character list. -/
def strEndsWith (s suf : String) : Bool :=
  decide (suf.toList = s.toList.drop (s.toList.length - suf.toList.length))

/-- Helper for the Python substring test: does the needle occur at the
head of the haystack. -/
def subAt : List Char → List Char → Bool
  | [], _ => true
  | _ :: _, [] => false
  | a :: as', b :: bs => a == b && subAt as' bs

/-- Python substring containment test (the in operator on str). -/
def containsSub (needle : List Char) : List Char → Bool
  | [] => needle.isEmpty
  | c :: rest => subAt needle (c :: rest) || containsSub needle rest

/-- Python sub in s, on strings. -/
def strIn (sub s : String) : Bool :=
  containsSub sub.toList s.toList

/-- Python str.startswith. -/
def strStartsWith (s pat : String) : Bool :=
  subAt pat.toList s.toList

/-- The pathlib with_suffix operation for the zip suffix: replaces the
current suffix of the name by a zip suffix. -/
def withSuffixZip (s : String) : String :=
  pstem s ++ ".zip"

/-! ## strptime model

The CPython strptime turns a format into a regular expression
(digit-count alternations for each field, whitespace runs for spaces),
takes the first full match under ordered-alternation backtracking, and
then builds a datetime value, which validates calendar ranges. The
backtracking search is modelled by candidate lists in alternation
order, combined by an ordered-choice chain. -/

/-- Ordered-choice combinator: try each candidate in order, feeding the
continuation, and keep the first success. -/
def chain {α β : Type} : List (α × List Char) → (α → List Char → Option β) → Option β
  | [], _ => none
  | (v, r) :: rest, k =>
    match k v r with
    | some b => some b
    | none => chain rest k

/-- Numeric value of a digit character. -/
def digVal (c : Char) : Nat := c.toNat - 48

/-- Field match for a four-digit year. -/
def pY : List Char → List (Nat × List Char)
  | a :: b :: c :: d :: rest =>
    if a.isDigit && b.isDigit && c.isDigit && d.isDigit then
      [(((digVal a * 10 + digVal b) * 10 + digVal c) * 10 + digVal d, rest)]
    else []
  | _ => []

/-- Field match for a month: two-digit alternatives before the bare
digit, in regex alternation order. -/
def pMonth (cs : List Char) : List (Nat × List Char) :=
  (match cs with
   | a :: b :: rest =>
     if a == '1' && (b == '0' || b == '1' || b == '2') then [(10 + digVal b, rest)] else []
   | _ => []) ++
  (match cs with
   | a :: b :: rest =>
     if a == '0' && b.isDigit && b != '0' then [(digVal b, rest)] else []
   | _ => []) ++
  (match cs with
   | a :: rest => if a.isDigit && a != '0' then [(digVal a, rest)] else []
   | _ => [])

/-- Field match for a day of month. -/
def pDay (cs : List Char) : List (Nat × List Char) :=
  (match cs with
   | a :: b :: rest =>
     if a == '3' && (b == '0' || b == '1') then [(30 + digVal b, rest)] else []
   | _ => []) ++
  (match cs with
   | a :: b :: rest =>
     if (a == '1' || a == '2') && b.isDigit then [(digVal a * 10 + digVal b, rest)] else []
   | _ => []) ++
  (match cs with
   | a :: b :: rest =>
     if a == '0' && b.isDigit && b != '0' then [(digVal b, rest)] else []
   | _ => []) ++
  (match cs with
   | a :: rest => if a.isDigit && a != '0' then [(digVal a, rest)] else []
   | _ => [])

/-- Field match for an hour. -/
def pHour (cs : List Char) : List (Nat × List Char) :=
  (match cs with
   | a :: b :: rest =>
     if a == '2' && (b == '0' || b == '1' || b == '2' || b == '3') then [(20 + digVal b, rest)] else []
   | _ => []) ++
  (match cs with
   | a :: b :: rest =>
     if (a == '0' || a == '1') && b.isDigit then [(digVal a * 10 + digVal b, rest)] else []
   | _ => []) ++
  (match cs with
   | a :: rest => if a.isDigit then [(digVal a, rest)] else []
   | _ => [])

/-- Field match for a minute. -/
def pMin (cs : List Char) : List (Nat × List Char) :=
  (match cs with
   | a :: b :: rest =>
     if a.isDigit && digVal a ≤ 5 && b.isDigit then [(digVal a * 10 + digVal b, rest)] else []
   | _ => []) ++
  (match cs with
   | a :: rest => if a.isDigit then [(digVal a, rest)] else []
   | _ => [])

/-- Field match for a second, which the regex allows up to 61. -/
def pSec (cs : List Char) : List (Nat × List Char) :=
  (match cs with
   | a :: b :: rest =>
     if a == '6' && (b == '0' || b == '1') then [(60 + digVal b, rest)] else []
   | _ => []) ++
  (match cs with
   | a :: b :: rest =>
     if a.isDigit && digVal a ≤ 5 && b.isDigit then [(digVal a * 10 + digVal b, rest)] else []
   | _ => []) ++
  (match cs with
   | a :: rest => if a.isDigit then [(digVal a, rest)] else []
   | _ => [])

/-- Literal character match in the format. -/
def pLit (c : Char) : List Char → List (Unit × List Char)
  | a :: rest => if a == c then [((), rest)] else []
  | _ => []

/-- Whitespace in the Python sense of the regex class. -/
def isPyWS (c : Char) : Bool :=
  c == ' ' || c == '\t' || c == '\n' || c == '\r' || c == '\x0b' || c == '\x0c'

/-- A space in the format matches a nonempty whitespace run; greedy
first, then shorter, as regex backtracking would. -/
def pWS (cs : List Char) : List (Unit × List Char) :=
  let n := (cs.takeWhile isPyWS).length
  (List.range n).map (fun k => ((), cs.drop (n - k)))

/-- Timezone-name match. Modelled from the spec: the timezone designator
of the first format. CPython accepts the locale timezone names plus the
always-present utc and gmt names, case-insensitively; the model keeps
the two portable names. -/
def pTz (cs : List Char) : List (Unit × List Char) :=
  match cs with
  | a :: b :: c :: rest =>
    let w := strLower (String.mk [a, b, c])
    if w == "utc" || w == "gmt" then [((), rest)] else []
  | _ => []

/-- Leap-year test, as the Gregorian rule used by datetime. -/
def isLeap (y : Nat) : Bool :=
  (y % 4 == 0 && y % 100 != 0) || y % 400 == 0

/-- Days in a month of a given year. -/
def daysInMonth (y m : Nat) : Nat :=
  match m with
  | 2 => if isLeap y then 29 else 28
  | 4 => 30 | 6 => 30 | 9 => 30 | 11 => 30
  | _ => 31

/-- The datetime constructor: validates all calendar fields, the way
the datetime class raises ValueError on out-of-range values. -/
def mkDatetime (y mo d h mi s : Nat) : Option DateTime :=
  if 1 ≤ y && y ≤ 9999 && 1 ≤ mo && mo ≤ 12 && 1 ≤ d && d ≤ daysInMonth y mo
      && h ≤ 23 && mi ≤ 59 && s ≤ 59 then
    some ⟨y, mo, d, h, mi, s⟩
  else none

/-- Regex phase shared by both timestamp formats: year, month, day,
whitespace, hour, minute, second, then a caller-chosen tail. -/
def matchCore {β : Type} (cs : List Char)
    (k : Nat → Nat → Nat → Nat → Nat → Nat → List Char → Option β) : Option β :=
  chain (pY cs) fun y r1 =>
  chain (pLit '-' r1) fun _ r2 =>
  chain (pMonth r2) fun mo r3 =>
  chain (pLit '-' r3) fun _ r4 =>
  chain (pDay r4) fun d r5 =>
  chain (pWS r5) fun _ r6 =>
  chain (pHour r6) fun h r7 =>
  chain (pLit ':' r7) fun _ r8 =>
  chain (pMin r8) fun mi r9 =>
  chain (pLit ':' r9) fun _ r10 =>
  chain (pSec r10) fun s r11 =>
  k y mo d h mi s r11

/-- strptime against the format with a timezone designator. -/
def strptimeWithTz (s : String) : Option DateTime :=
  (matchCore s.toList fun y mo d h mi sec r =>
    chain (pWS r) fun _ r2 =>
    chain (pTz r2) fun _ r3 =>
    if r3.isEmpty then some (y, mo, d, h, mi, sec) else none :
      Option (Nat × Nat × Nat × Nat × Nat × Nat)).bind
    fun t => mkDatetime t.1 t.2.1 t.2.2.1 t.2.2.2.1 t.2.2.2.2.1 t.2.2.2.2.2

/-- strptime against the format without a timezone designator. -/
def strptimeNoTz (s : String) : Option DateTime :=
  (matchCore s.toList fun y mo d h mi sec r =>
    if r.isEmpty then some (y, mo, d, h, mi, sec) else none :
      Option (Nat × Nat × Nat × Nat × Nat × Nat)).bind
    fun t => mkDatetime t.1 t.2.1 t.2.2.1 t.2.2.2.1 t.2.2.2.2.1 t.2.2.2.2.2

/-- strptime against the date-only format used by the organizer. -/
def strptimeDate (s : String) : Option DateTime :=
  (chain (pY s.toList) fun y r1 =>
   chain (pLit '-' r1) fun _ r2 =>
   chain (pMonth r2) fun mo r3 =>
   chain (pLit '-' r3) fun _ r4 =>
   chain (pDay r4) fun d r5 =>
   (if r5.isEmpty then some (y, mo, d) else none : Option (Nat × Nat × Nat))).bind
    fun t => mkDatetime t.1 t.2.1 t.2.2 0 0 0

/-- The ordered format list of parse_date, tried first to last. -/
def tryFormats (s : String) : List (String → Option DateTime) → Option DateTime
  | [] => none
  | f :: fs =>
    match f s with
    | some d => some d
    | none => tryFormats s fs

/-- parse_date from the source: try the format with a timezone
designator, then the one without; on total failure log a warning and
return the current wall-clock time. The wall clock is passed in as now;
the Bool records whether the warning was printed. -/
def parse_date (now : DateTime) (date_str : String) : DateTime × Bool :=
  match tryFormats date_str [strptimeWithTz, strptimeNoTz] with
  | some d => (d, false)
  | none => (now, true)

/-! ## guess_extension -/

/-- The recognized extension tuple scanned against the url. -/
def recognizedExts : List String :=
  [".zip", ".mp4", ".mov", ".jpg", ".jpeg", ".png", ".heic"]

/-- First recognized extension that the lowered url ends with. -/
def findExtOf (url_l : String) : List String → Option String
  | [] => none
  | e :: es => if strEndsWith url_l e then some e else findExtOf url_l es

/-- guess_extension from the source: a recognized suffix of the url wins;
otherwise keywords of the lowered media-type label; otherwise empty. -/
def guess_extension (media_type url : String) : String :=
  match findExtOf (strLower url) recognizedExts with
  | some e => e
  | none =>
    if strIn "zip" (strLower media_type) then ".zip"
    else if strIn "video" (strLower media_type) then ".mp4"
    else if strIn "image" (strLower media_type) || strIn "photo" (strLower media_type)
         || strIn "snap" (strLower media_type) then ".jpg"
    else ""

/-! ## Image raster model

The image codec and compositor are external collaborators (PIL). They
are modelled concretely: a raster is a row-major grid of RGBA
quadruples, decoding reads a width-height header followed by the pixel
payload, resizing samples the source grid at the scaled coordinates,
and alpha compositing blends per pixel over the destination grid. The
pipeline only moves whole rasters around and compares dimensions. -/

/-- RGBA pixel. -/
abbrev RGBA := Nat × Nat × Nat × Nat

/-- RGB pixel. -/
abbrev RGB := Nat × Nat × Nat

/-- Height of a raster: number of rows. -/
def imgH {α : Type} (im : List (List α)) : Nat := im.length

/-- Width of a raster: length of its first row. -/
def imgW {α : Type} (im : List (List α)) : Nat := (im.headD []).length

/-- Size of a raster in the PIL order: width then height. -/
def imgSize {α : Type} (im : List (List α)) : Nat × Nat := (imgW im, imgH im)

/-- Row-major grid builder. -/
def mkGrid {α : Type} (w h : Nat) (f : Nat → Nat → α) : List (List α) :=
  (List.range h).map fun y => (List.range w).map fun x => f x y

/-- Pixel access with a transparent default outside the grid. -/
def pixAt (im : List (List RGBA)) (x y : Nat) : RGBA :=
  ((im.getD y []).getD x (0, 0, 0, 0))

/-- Models the external image codec (open plus a conversion to RGBA):
the byte list decodes to a raster when it is a width, a height and then
exactly four payload bytes per pixel; any other byte list fails to
decode, the way the codec raises on undecodable data. -/
def decodeImage : List Nat → Option (List (List RGBA))
  | w :: h :: px =>
    if px.length == 4 * w * h then
      some (mkGrid w h fun x y =>
        (px.getD (4 * (y * w + x)) 0, px.getD (4 * (y * w + x) + 1) 0,
         px.getD (4 * (y * w + x) + 2) 0, px.getD (4 * (y * w + x) + 3) 0))
    else none
  | _ => none

/-- Models the PIL resize collaborator: a grid of exactly the requested
size, sampling the source at the scaled coordinates. -/
def resizeImg (im : List (List RGBA)) (w h : Nat) : List (List RGBA) :=
  mkGrid w h fun x y =>
    pixAt im (x * imgW im / (if w == 0 then 1 else w))
             (y * imgH im / (if h == 0 then 1 else h))

/-- Per-pixel source-over blend, modelling the PIL alpha compositor. -/
def overPix (dst src : RGBA) : RGBA :=
  let da := dst.2.2.2
  let sa := src.2.2.2
  let oa := sa + da * (255 - sa) / 255
  let blend := fun (dc sc : Nat) =>
    if oa == 0 then 0 else (sc * sa + dc * da * (255 - sa) / 255) / oa
  (blend dst.1 src.1, blend dst.2.1 src.2.1, blend dst.2.2.1 src.2.2.1, oa)

/-- Models alpha_composite: blends the source over the destination on
the destination grid. -/
def alphaComposite (dst src : List (List RGBA)) : List (List RGBA) :=
  mkGrid (imgW dst) (imgH dst) fun x y => overPix (pixAt dst x y) (pixAt src x y)

/-- Conversion to RGB: drops the alpha channel, keeping the grid. -/
def toRGB (im : List (List RGBA)) : List (List RGB) :=
  im.map fun row => row.map fun p => (p.1, p.2.1, p.2.2.1)

/-- The merge computation of merge_image_zip once base and overlay are
decoded: resample the overlay to the base size when the sizes differ,
composite over the base, and flatten to RGB; with no overlay the base
alone is flattened. -/
def mergeDecoded (base : List (List RGBA)) (ov : Option (List (List RGBA))) :
    List (List RGB) :=
  match ov with
  | some ovImg =>
    toRGB (alphaComposite base
      (if imgSize ovImg != imgSize base then resizeImg ovImg (imgW base) (imgH base)
       else ovImg))
  | none => toRGB base

/-! ## Zip archives and the stage-2 helpers -/

/-- One archive entry: its stored name and its bytes. A member whose
bytes cannot be produced (a corrupt member, whose read raises) carries
none. Directories are the entries whose names end in a slash, as in
zipfile. -/
structure ZEntry where
  ename : String
  edata : Option (List Nat)
deriving DecidableEq, Repr

/-- Directory test of zipfile: the name ends with a slash. -/
def zIsDir (e : ZEntry) : Bool := strEndsWith e.ename "/"

/-- The image extension set. -/
def IMAGE_EXTS : List String := [".jpg", ".jpeg", ".png", ".heic", ".gif", ".webp"]

/-- The video extension set. -/
def VIDEO_EXTS : List String := [".mp4", ".mov", ".m4v", ".avi", ".hevc", ".mkv"]

/-- is_image_filename from the source. -/
def is_image_filename (n : String) : Bool :=
  IMAGE_EXTS.contains (strLower (psuffix n))

/-- is_video_filename from the source. -/
def is_video_filename (n : String) : Bool :=
  VIDEO_EXTS.contains (strLower (psuffix n))

/-- pick_base_and_overlay from the source: filter the image names, pick
the base by the media-substring, non-png, first-image cascade, then the
overlay as the first png other than the base. -/
def pick_base_and_overlay (names : List String) : Option String × Option String :=
  let image_names := names.filter (fun n => is_image_filename n)
  match image_names with
  | [] => (none, none)
  | i0 :: _ =>
    let base_candidates := image_names.filter (fun n => strIn "media" (strLower n))
    let base_name :=
      if base_candidates.isEmpty then
        let non_png := image_names.filter (fun n => !(strEndsWith (strLower n) ".png"))
        match non_png with
        | b :: _ => b
        | [] => i0
      else base_candidates.headD i0
    let overlay_candidates :=
      image_names.filter (fun n => strEndsWith (strLower n) ".png" && n != base_name)
    (some base_name, overlay_candidates.head?)

/-- Read a member by name, the zipfile way: the name-to-info map keeps
the last entry of each name, and a corrupt member fails the read. -/
def zread (entries : List ZEntry) (nm : String) : Option (List Nat) :=
  match (entries.filter (fun e => e.ename == nm)).getLast? with
  | some e => e.edata
  | none => none

/-! ## Stage 1: one row of the download loop -/

/-- The bytes fetched for one row: either plain bytes or a well-formed
zip with its entry list. The is_zipfile test distinguishes the two. -/
inductive Blob where
  | raw (bs : List Nat)
  | zip (entries : List ZEntry)
deriving DecidableEq, Repr

/-- is_zipfile on the fetched bytes. -/
def isZipBlob : Blob → Bool
  | .zip _ => true
  | .raw _ => false

/-- One metadata row, with the fetch outcome attached: none means the
download failed and the row is skipped. -/
structure Row1 where
  dateText : String
  mediaType : String
  url : Option String
  blob : Option Blob
deriving DecidableEq, Repr

/-- A downloaded file on disk: name, modification time, content. -/
structure DFile where
  fname : String
  mtime : DateTime
  blob : Blob
deriving DecidableEq, Repr

/-- Outcome of one row: skipped (no url, or fetch error — logged and the
loop continues), crashed (an uncaught error escapes the loop), or a
file on disk. -/
inductive RowResult where
  | skipped
  | crashed
  | ok (f : DFile)
deriving DecidableEq, Repr

/-- The safe media type used in the filename. -/
def safeMediaType (mt : String) : String :=
  let x := strLower (strReplaceChar ' ' '_' mt)
  if x == "" then "media" else x

/-- One rewritten entry of rewrite_zip_in_place: the new name embeds the
timestamp, the original stem (or a file placeholder when the stem is
empty), the row index and the running entry index, and keeps the
original suffix; the data is read back by original name. -/
def rewriteName (dt : DateTime) (row_index idx : Nat) (inner : String) : String :=
  let base := if pstem inner == "" then "file" else pstem inner
  fmtTs dt ++ "_" ++ base ++ "_" ++ natToDec row_index ++ "_" ++ natToDec idx ++
    psuffix inner

/-- The rewrite loop over the entry list: the index counts every entry,
directories included, but directories are dropped; a failing member
read makes the whole rewrite fail (the exception escapes). -/
def rewriteLoop (dt : DateTime) (row_index : Nat) (allE : List ZEntry) :
    Nat → List ZEntry → Option (List ZEntry)
  | _, [] => some []
  | idx, e :: es =>
    if zIsDir e then rewriteLoop dt row_index allE (idx + 1) es
    else
      match zread allE e.ename with
      | none => none
      | some data =>
        (rewriteLoop dt row_index allE (idx + 1) es).map
          (fun rest => ⟨rewriteName dt row_index idx e.ename, some data⟩ :: rest)

/-- rewrite_zip_in_place from the source, on the entry list of a
well-formed zip (the not-a-zipfile early return is handled by the
caller match on the blob). -/
def rewrite_zip_in_place (dt : DateTime) (row_index : Nat) (entries : List ZEntry) :
    Option (List ZEntry) :=
  rewriteLoop dt row_index entries 1 entries

/-- The stage-1 filename of a row: resolved timestamp, safe media
type, row index and guessed extension. -/
def stage1Filename (now : DateTime) (i : Nat) (r : Row1) (u : String) : String :=
  fmtTs (parse_date now r.dateText).1 ++ "_" ++ safeMediaType r.mediaType ++ "_" ++
    natToDec i ++ guess_extension r.mediaType u

/-- The zip tail of one stage-1 iteration: ensure the zip suffix on the
name, rewrite the archive in place (a failing member read escapes as a
crash), and stamp the resolved time again. -/
def processZipBlob (dt : DateTime) (fname : String) (i : Nat) (es : List ZEntry) :
    RowResult :=
  match rewrite_zip_in_place dt i es with
  | none => .crashed
  | some es2 =>
    .ok ⟨(if strLower (psuffix fname) != ".zip" then withSuffixZip fname else fname),
         dt, .zip es2⟩

/-- One iteration of the stage-1 loop, for the row at 1-based index i:
resolve the date, guess the extension, build the filename, write the
fetched bytes, stamp the resolved time, and for zip content ensure the
zip suffix and rewrite the archive in place (stamping again). -/
def processRow (now : DateTime) (i : Nat) (r : Row1) : RowResult :=
  match r.url with
  | none => .skipped
  | some u =>
    match r.blob with
    | none => .skipped
    | some b =>
      match b with
      | .raw bs => .ok ⟨stage1Filename now i r u, (parse_date now r.dateText).1, .raw bs⟩
      | .zip es => processZipBlob (parse_date now r.dateText).1 (stage1Filename now i r u) i es

/-! ## Stage 2: the zip-processing state machine -/

/-- One zip file in the drop directory: filename, modification time,
and its entry list; none for content means the file fails to open as a
zip (the reader raises). -/
structure Archive where
  aname : String
  amtime : DateTime
  content : Option (List ZEntry)
deriving DecidableEq, Repr

/-- One extracted member on disk. -/
structure ExtFile where
  fname : String
  fmtime : DateTime
  fdata : List Nat
deriving DecidableEq, Repr

/-- The drop directory as stage 2 sees it: remaining zip files, merged
jpg outputs (name to mtime and raster), and extraction folders (folder
name to extracted members). -/
structure FS2 where
  archives : List Archive
  merged : List (String × DateTime × List (List RGB))
  extracted : List (String × List ExtFile)
deriving DecidableEq, Repr

/-- Association lookup by string key. -/
def lookupS {β : Type} (k : String) : List (String × β) → Option β
  | [] => none
  | kv :: rest => if kv.1 == k then some kv.2 else lookupS k rest

/-- Association update: writing a key replaces any previous binding,
the way a filesystem write replaces the file at a path. -/
def setS {β : Type} (k : String) (v : β) (l : List (String × β)) :
    List (String × β) :=
  (k, v) :: l.filter (fun kv => kv.1 != k)

/-- File write into an extraction folder: replaces a member of the same
name, keeping the others. -/
def putFile (f : ExtFile) (l : List ExtFile) : List ExtFile :=
  l.filter (fun g => g.fname != f.fname) ++ [f]

/-- Unlink of a zip file by name. -/
def deleteArchive (nm : String) (l : List Archive) : List Archive :=
  l.filter (fun a => a.aname != nm)

/-- Does a zip of this name still exist in the drop directory. -/
def archivePresent (st : FS2) (nm : String) : Bool :=
  st.archives.any (fun a => a.aname == nm)

/-- Result of processing one zip in stage 2; the error outcomes are the
ones the per-archive handler logs before moving on. -/
inductive Stage2Res where
  | badZip
  | imageDone
  | imageSkip
  | imageErr
  | videoDone
  | videoErr
deriving DecidableEq, Repr

/-- Output name of a merged image archive. -/
def mergedName (a : Archive) : String := pstem a.aname ++ "_merged.jpg"

/-- merge_image_zip from the source: pick base and overlay from the
name list; with no base, log and return with the zip kept; otherwise
read and decode the base (and the overlay when present), merge, write
the merged jpg stamped with the zip mtime, and only then unlink the
zip. A failing read or decode raises, so the zip is kept. -/
def merge_image_zip (st : FS2) (a : Archive) (entries : List ZEntry) :
    FS2 × Stage2Res :=
  match pick_base_and_overlay (entries.map (fun e => e.ename)) with
  | (none, _) => (st, .imageSkip)
  | (some base_name, overlay_name) =>
    match (zread entries base_name).bind decodeImage with
    | none => (st, .imageErr)
    | some base_img =>
      match overlay_name with
      | some onm =>
        match (zread entries onm).bind decodeImage with
        | none => (st, .imageErr)
        | some ov_img =>
          let mergedImg := mergeDecoded base_img (some ov_img)
          let st2 := { st with
            merged := setS (mergedName a) (a.amtime, mergedImg) st.merged }
          ({ st2 with archives := deleteArchive a.aname st2.archives }, .imageDone)
      | none =>
        let mergedImg := mergeDecoded base_img none
        let st2 := { st with
          merged := setS (mergedName a) (a.amtime, mergedImg) st.merged }
        ({ st2 with archives := deleteArchive a.aname st2.archives }, .imageDone)

/-- The extraction loop: directories are skipped, each member is
written into the folder and stamped with the zip mtime; a corrupt
member stops the loop with the members so far kept on disk. -/
def extractLoop (mt : DateTime) : List ExtFile → List ZEntry → List ExtFile × Bool
  | files, [] => (files, true)
  | files, e :: es =>
    if zIsDir e then extractLoop mt files es
    else
      match e.edata with
      | none => (files, false)
      | some bs => extractLoop mt (putFile ⟨e.ename, mt, bs⟩ files) es

/-- extract_video_zip_to_folder from the source: create or reuse the
folder named after the zip stem, extract every non-directory member
stamped with the zip mtime, and unlink the zip only when every member
extracted. -/
def extract_video_zip_to_folder (st : FS2) (a : Archive) (entries : List ZEntry) :
    FS2 × Stage2Res :=
  let folderName := pstem a.aname
  let files0 := (lookupS folderName st.extracted).getD []
  let res := extractLoop a.amtime files0 entries
  let st1 := { st with extracted := setS folderName res.1 st.extracted }
  if res.2 then
    ({ st1 with archives := deleteArchive a.aname st1.archives }, .videoDone)
  else (st1, .videoErr)

/-- One iteration of the stage-2 loop: open and enumerate (a malformed
zip raises and is logged), classify by video presence, and dispatch. -/
def stage2ProcessOne (st : FS2) (a : Archive) : FS2 × Stage2Res :=
  match a.content with
  | none => (st, .badZip)
  | some entries =>
    if (entries.map (fun e => e.ename)).any is_video_filename then
      extract_video_zip_to_folder st a entries
    else merge_image_zip st a entries

/-- The stage-2 loop over the snapshot of zip files: every outcome is
logged and the loop always continues to the next zip. -/
def stage2loop : FS2 → List Archive → FS2 × List Stage2Res
  | st, [] => (st, [])
  | st, a :: rest =>
    let p := stage2ProcessOne st a
    let q := stage2loop p.1 rest
    (q.1, p.2 :: q.2)

/-- Stable insertion by name, modelling sorted on paths. -/
def insertByName (a : Archive) : List Archive → List Archive
  | [] => [a]
  | b :: bs => if decide (a.aname ≤ b.aname) then a :: b :: bs
               else b :: insertByName a bs

/-- Sort the zip list by name. -/
def sortArchives : List Archive → List Archive
  | [] => []
  | a :: rest => insertByName a (sortArchives rest)

/-- stage2_merge_and_extract from the source: glob the zip files,
sorted, and process each in turn. -/
def stage2_merge_and_extract (st : FS2) : FS2 × List Stage2Res :=
  stage2loop st (sortArchives (st.archives.filter (fun a => strEndsWith a.aname ".zip")))

/-- Did the classification-merge-extract step of this archive run to
completion: a malformed zip never completes; a video-classified zip
completes when every non-directory member is readable; an
image-classified zip completes when a base was picked and every chosen
raster reads and decodes. -/
def videoExtractOK (es : List ZEntry) : Bool :=
  es.all (fun e => zIsDir e || e.edata.isSome)

/-- Completion test of the image path. -/
def imageMergeOK (es : List ZEntry) : Bool :=
  match pick_base_and_overlay (es.map (fun e => e.ename)) with
  | (none, _) => false
  | (some b, ov) =>
    ((zread es b).bind decodeImage).isSome &&
      (match ov with
       | none => true
       | some o => ((zread es o).bind decodeImage).isSome)

/-- Completion test of one archive. -/
def archiveResolveOK (a : Archive) : Bool :=
  match a.content with
  | none => false
  | some es =>
    if (es.map (fun e => e.ename)).any is_video_filename then videoExtractOK es
    else imageMergeOK es

/-- The outcomes on which the archive is left in place: the logged
errors and the logged no-base skip. -/
def isErrOrSkip : Stage2Res → Bool
  | .badZip => true
  | .imageErr => true
  | .videoErr => true
  | .imageSkip => true
  | _ => false

/-- The outcomes of the video path. -/
def isVideoRes : Stage2Res → Bool
  | .videoDone => true
  | .videoErr => true
  | _ => false

/-! ## Stage 3: the organizer -/

/-- One filesystem entry as the organizer sees it: name, directory
flag, modification time, the names of the files inside it in scan order
(empty for plain files), and a payload identity used to state that no
entry is lost. -/
structure DirEntry where
  dname : String
  isDirE : Bool
  dmtime : DateTime
  children : List String
  uid : Nat
deriving DecidableEq, Repr

/-- The media root as stage 3 sees it: the top-level entries and the
already-organized entries keyed by their path below the root. -/
structure FS3 where
  top : List DirEntry
  sub : List (List String × DirEntry)
deriving DecidableEq, Repr

/-- Association lookup by path key. -/
def lookupP {β : Type} (k : List String) : List (List String × β) → Option β
  | [] => none
  | kv :: rest => if kv.1 == k then some kv.2 else lookupP k rest

/-- Association update by path key, replacing any previous binding. -/
def setP {β : Type} (k : List String) (v : β) (l : List (List String × β)) :
    List (List String × β) :=
  (k, v) :: l.filter (fun kv => kv.1 != k)

/-- is_year_folder from the source: a directory whose name is exactly
four digits. -/
def is_year_folder (e : DirEntry) : Bool :=
  e.isDirE && e.dname.toList.all Char.isDigit && e.dname.length == 4

/-- Python slicing of the first n characters. -/
def strTake (s : String) (n : Nat) : String :=
  String.mk (s.toList.take n)

/-- get_target_date from the source: parse the leading ten characters
as a date, else fall back to the filesystem modification time. -/
def get_target_date (e : DirEntry) : DateTime :=
  match strptimeDate (strTake e.dname 10) with
  | some d => d
  | none => e.dmtime

/-- The directory scan of classify_item: break on the first video file,
remember whether any image file was seen. -/
def classifyLoop : Bool → List String → Bool × Bool
  | hi, [] => (false, hi)
  | hi, c :: rest =>
    let ext := strLower (psuffix c)
    if VIDEO_EXTS.contains ext then (true, hi)
    else if IMAGE_EXTS.contains ext then classifyLoop true rest
    else classifyLoop hi rest

/-- classify_item from the source. -/
def classify_item (e : DirEntry) : String :=
  if !e.isDirE then
    let ext := strLower (psuffix e.dname)
    if IMAGE_EXTS.contains ext then "images"
    else if VIDEO_EXTS.contains ext then "videos"
    else "other"
  else
    let hv := classifyLoop false e.children
    if hv.1 then "videos"
    else if hv.2 then "images"
    else "other"

/-- Month name of strftime. -/
def monthLabel : Nat → String
  | 1 => "January" | 2 => "February" | 3 => "March" | 4 => "April"
  | 5 => "May" | 6 => "June" | 7 => "July" | 8 => "August"
  | 9 => "September" | 10 => "October" | 11 => "November" | 12 => "December"
  | _ => ""

/-- The year-directory name an entry organizes into. -/
def yearNameOf (e : DirEntry) : String :=
  padNum 4 (get_target_date e).year

/-- The destination directory components of an entry:
year, month folder, category. -/
def destRootOf (e : DirEntry) : List String :=
  [yearNameOf e,
   padNum 2 (get_target_date e).month ++ " - " ++ monthLabel (get_target_date e).month,
   classify_item e]

/-- The collision name: dup inserted before the extension. -/
def dupNameOf (e : DirEntry) : String :=
  pstem e.dname ++ "_dup" ++ psuffix e.dname

/-- A fresh year directory entry as mkdir creates it. -/
def yearDirEntry (nm : String) : DirEntry :=
  ⟨nm, true, ⟨1970, 1, 1, 0, 0, 0⟩, [], 0⟩

/-- mkdir of the year directory with exist_ok: reused when the
directory exists. -/
def addYearDir (top : List DirEntry) (nm : String) : List DirEntry :=
  if top.any (fun t => t.dname == nm && t.isDirE) then top
  else top ++ [yearDirEntry nm]

/-- Outcome of one organizer iteration: a move with its destination
path and whether an existing entry was replaced; a skip; or a crash (an
uncaught error — mkdir over a file, or a rename onto something that is
not a plain file — which halts the run). -/
inductive Step3Res where
  | moved (destPath : List String) (overwrote : Bool)
  | skippedE
  | crashE
deriving DecidableEq, Repr

/-- The final destination path of an entry: the primary path, or the
dup path when the primary path is occupied. -/
def destFinal (st : FS3) (e : DirEntry) : List String :=
  if (lookupP (destRootOf e ++ [e.dname]) st.sub).isSome then
    destRootOf e ++ [dupNameOf e]
  else destRootOf e ++ [e.dname]

/-- The state after a successful move: the entry leaves the top level
(its year directory created if needed) and lands at its final
destination path, replacing whatever was there. -/
def movedState (st : FS3) (e : DirEntry) : FS3 :=
  { top := (addYearDir st.top (yearNameOf e)).filter (fun t => t.dname != e.dname),
    sub := setP (destFinal st e) { e with dname := (destFinal st e).getLastD e.dname }
      st.sub }

/-- The rename against the occupant of the final destination: replacing
a plain file with a plain file succeeds silently; a free destination is
plain; any other occupied combination halts. -/
def occStep (st : FS3) (e : DirEntry) : Option DirEntry → FS3 × Step3Res
  | some occ =>
    if !e.isDirE && !occ.isDirE then (movedState st e, .moved (destFinal st e) true)
    else (st, .crashE)
  | none => (movedState st e, .moved (destFinal st e) false)

/-- One iteration of the organizer loop: skip year folders and hidden
entries; derive the date, the category and the destination; resolve a
collision by the dup name; move. A rename onto an existing plain file
replaces it silently; any other occupied destination halts (mkdir over
a top-level file bearing the year name also halts). -/
def stage3step (st : FS3) (e : DirEntry) : FS3 × Step3Res :=
  if is_year_folder e || strStartsWith e.dname "." then (st, .skippedE)
  else if st.top.any (fun t => t.dname == yearNameOf e && !t.isDirE) then (st, .crashE)
  else occStep st e (lookupP (destFinal st e) st.sub)

/-- The organizer loop over the snapshot of top-level entries; a crash
halts the run at that entry. The Bool records completion. -/
def stage3loop : FS3 → List DirEntry → FS3 × List Step3Res × Bool
  | st, [] => (st, [], true)
  | st, e :: rest =>
    match stage3step st e with
    | (st1, .moved d b) =>
      let q := stage3loop st1 rest
      (q.1, .moved d b :: q.2.1, q.2.2)
    | (st1, .skippedE) => stage3loop st1 rest
    | (st1, .crashE) => (st1, [], false)

/-- stage3_organize from the source: snapshot the top-level listing and
process each entry. -/
def stage3_organize (st : FS3) : FS3 × List Step3Res × Bool :=
  stage3loop st st.top

/-- The moves among a list of outcomes. -/
def movesOf (rs : List Step3Res) : List Step3Res :=
  rs.filter (fun r => match r with | .moved _ _ => true | _ => false)

/-! ## Spec-side definitions

These two definitions transcribe claim language, to be compared with
the source-side functions above. -/

/-- The claim-side description of base and overlay selection: the base
is the first image name containing the media substring, else the first
image name not png-suffixed, else the first image name; the overlay is
the first png-suffixed image name other than the base. -/
def pickSpec (names : List String) : Option String × Option String :=
  match names.filter (fun n => is_image_filename n) with
  | [] => (none, none)
  | i0 :: rest =>
    let imgs := i0 :: rest
    let b :=
      match imgs.find? (fun n => strIn "media" (strLower n)) with
      | some m => m
      | none =>
        match imgs.find? (fun n => !(strEndsWith (strLower n) ".png")) with
        | some np => np
        | none => i0
    (some b, imgs.find? (fun n => strEndsWith (strLower n) ".png" && n != b))

/-- The claim-side description of the zip rewrite, amended: the result
is exactly the non-directory entries, in order; the entry at overall
1-based position i is renamed to the timestamp, the original stem (or
the file placeholder when that stem is empty), the row index, i and the
original suffix; its content is the content the archive stores under
the entry's original name. -/
def rewriteSpec (dt : DateTime) (row_index : Nat) (entries : List ZEntry) :
    List ZEntry :=
  ((List.enumFrom 1 entries).filter (fun p => !zIsDir p.2)).map
    (fun p => ⟨rewriteName dt row_index p.1 p.2.ename, zread entries p.2.ename⟩)

/-- Calendar validity of a modelled timestamp, as datetime guarantees
for every value it constructs. -/
def validDT (d : DateTime) : Prop :=
  1 ≤ d.year ∧ d.year ≤ 9999 ∧ 1 ≤ d.month ∧ d.month ≤ 12

instance (d : DateTime) : Decidable (validDT d) := by
  unfold validDT; infer_instance

/-! ## Concrete fixtures used by witnesses and counterexamples -/

/-- A sample timestamp. -/
def dtA : DateTime := ⟨2023, 5, 1, 10, 0, 0⟩

/-- Another sample timestamp, standing for the wall clock. -/
def dtNow : DateTime := ⟨2024, 1, 2, 3, 4, 5⟩

/-- Decodable bytes of a one-pixel raster. -/
def bytes1x1 : List Nat := [1, 1, 10, 20, 30, 255]

/-- A sample image archive. -/
def aImg : Archive :=
  ⟨"2023-05-01_10-00-00_image_1.zip", dtA, some [⟨"memory_media.jpg", some bytes1x1⟩]⟩

/-- A drop directory holding the sample image archive. -/
def fsImg : FS2 := ⟨[aImg], [], []⟩

/-- A sample video archive holding a video and an image. -/
def aVid : Archive :=
  ⟨"clip.zip", dtA, some [⟨"v.mp4", some [1, 2]⟩, ⟨"p.jpg", some bytes1x1⟩]⟩

/-- A drop directory holding the sample video archive. -/
def fsVid : FS2 := ⟨[aVid], [], []⟩

/-- A sample base raster, two by two. -/
def base2x2 : List (List RGBA) :=
  [[(1, 2, 3, 4), (5, 6, 7, 8)], [(2, 2, 2, 2), (3, 3, 3, 3)]]

/-- A sample overlay raster of a different size. -/
def ov1x1 : List (List RGBA) := [[(9, 9, 9, 9)]]

/-- A sample row with plain fetched bytes. -/
def rowRaw : Row1 :=
  ⟨"2023-05-01 10:00:00", "Image", some "http://x/a.jpg", some (Blob.raw [1, 2, 3])⟩

/-- A sample row whose fetched bytes form a zip. -/
def rowZip : Row1 :=
  ⟨"2023-05-01 10:00:00", "zip", some "http://x/dl", some (Blob.zip [⟨"a.jpg", some [1, 2]⟩])⟩

/-- A year directory at the top level. -/
def orgYear : DirEntry := ⟨"2023", true, dtA, [], 7⟩

/-- A hidden entry at the top level. -/
def orgHidden : DirEntry := ⟨".DS_Store", false, dtA, [], 8⟩

/-- An already-organized media root. -/
def orgDone : FS3 := ⟨[orgYear, orgHidden], []⟩

/-- A movable top-level file. -/
def orgItem : DirEntry := ⟨"2023-05-01_a.jpg", false, dtA, [], 1⟩

/-- An occupant of the primary destination of orgItem. -/
def orgOcc1 : DirEntry := ⟨"2023-05-01_a.jpg", false, dtA, [], 2⟩

/-- An occupant of the dup destination of orgItem. -/
def orgOcc2 : DirEntry := ⟨"2023-05-01_a_dup.jpg", false, dtA, [], 3⟩

/-- The primary destination path of orgItem. -/
def pathMain : List String := ["2023", "05 - May", "images", "2023-05-01_a.jpg"]

/-- The dup destination path of orgItem. -/
def pathDup : List String := ["2023", "05 - May", "images", "2023-05-01_a_dup.jpg"]

/-- A media root where both destinations of orgItem are occupied. -/
def fsCex : FS3 := ⟨[orgItem], [(pathMain, orgOcc1), (pathDup, orgOcc2)]⟩

/-- A media root where only the primary destination is occupied. -/
def fsAmend : FS3 := ⟨[orgItem], [(pathMain, orgOcc1)]⟩

/-- A media root holding one movable item and nothing organized. -/
def fsFresh : FS3 := ⟨[orgItem], []⟩

/-- The rename template of the claim for the zip rewrite, taken
verbatim: timestamp, the original stem, the row index, the entry index
and the original extension, with no placeholder for an empty stem. -/
def claimRewriteName (dt : DateTime) (row_index idx : Nat) (inner : String) : String :=
  fmtTs dt ++ "_" ++ pstem inner ++ "_" ++ natToDec row_index ++ "_" ++ natToDec idx ++
    psuffix inner

/-- The file stage 1 writes for the sample zip row. -/
def fZip : DFile :=
  ⟨"2023-05-01_10-00-00_zip_1.zip", dtA,
   Blob.zip [⟨"2023-05-01_10-00-00_a_1_1.jpg", some [1, 2]⟩]⟩

/-! ## Helper lemmas -/

theorem headD_filter_eq_find {α : Type} (p : α → Bool) (l : List α) :
    (l.filter p).head? = l.find? p := by
  induction l with
  | nil => rfl
  | cons a t ih =>
    by_cases h : p a = true
    · rw [List.find?_cons_of_pos _ h]
      simp [List.filter_cons, h]
    · rw [List.find?_cons_of_neg _ h]
      simp [List.filter_cons, h, ih]

theorem endsWith_toList {u e : String} (h : strEndsWith u e = true) :
    e.toList = u.toList.drop (u.toList.length - e.toList.length) :=
  of_decide_eq_true h

theorem recExts_suffix_unique : ∀ e1 ∈ recognizedExts, ∀ e2 ∈ recognizedExts,
    e1.toList.length ≤ e2.toList.length →
    e1.toList = e2.toList.drop (e2.toList.length - e1.toList.length) → e1 = e2 := by
  decide

theorem endsWith_both_eq {u e1 e2 : String}
    (h1 : strEndsWith u e1 = true) (h2 : strEndsWith u e2 = true)
    (hle : e1.toList.length ≤ e2.toList.length) :
    e1.toList = e2.toList.drop (e2.toList.length - e1.toList.length) := by
  have g1 := endsWith_toList h1
  have g2 := endsWith_toList h2
  have hl2 : e2.toList.length ≤ u.toList.length := by
    have hlen := congrArg List.length g2
    rw [List.length_drop] at hlen
    omega
  calc e1.toList
      = u.toList.drop (u.toList.length - e1.toList.length) := g1
    _ = (u.toList.drop (u.toList.length - e2.toList.length)).drop
          (e2.toList.length - e1.toList.length) := by
        rw [List.drop_drop]
        congr 1
        omega
    _ = e2.toList.drop (e2.toList.length - e1.toList.length) := by rw [← g2]

theorem findExtOf_mem {u : String} : ∀ {l : List String} {e : String},
    findExtOf u l = some e → e ∈ l ∧ strEndsWith u e = true := by
  intro l
  induction l with
  | nil => intro e h; cases h
  | cons a t ih =>
    intro e h
    unfold findExtOf at h
    by_cases ha : strEndsWith u a = true
    · rw [if_pos ha] at h
      cases h
      exact ⟨List.mem_cons_self a t, ha⟩
    · rw [if_neg ha] at h
      rcases ih h with ⟨hm, he⟩
      exact ⟨List.mem_cons_of_mem a hm, he⟩

theorem findExtOf_none {u : String} : ∀ {l : List String},
    (∀ e ∈ l, strEndsWith u e = false) → findExtOf u l = none := by
  intro l
  induction l with
  | nil => intro _; rfl
  | cons a t ih =>
    intro h
    unfold findExtOf
    rw [if_neg (by simp [h a (List.mem_cons_self a t)])]
    exact ih (fun e he => h e (List.mem_cons_of_mem a he))

theorem findExtOf_isSome {u : String} : ∀ {l : List String},
    (∃ e ∈ l, strEndsWith u e = true) → (findExtOf u l).isSome = true := by
  intro l
  induction l with
  | nil => rintro ⟨e, he, _⟩; cases he
  | cons a t ih =>
    rintro ⟨e, he, hu⟩
    unfold findExtOf
    by_cases ha : strEndsWith u a = true
    · rw [if_pos ha]; rfl
    · rw [if_neg ha]
      rcases List.mem_cons.mp he with rfl | hm
      · exact absurd hu ha
      · exact ih ⟨e, hm, hu⟩

theorem imgH_mkGrid {α : Type} (w h : Nat) (f : Nat → Nat → α) :
    imgH (mkGrid w h f) = h := by
  simp [mkGrid, imgH]

theorem imgW_mkGrid_pos {α : Type} (w h : Nat) (f : Nat → Nat → α) (hh : h ≠ 0) :
    imgW (mkGrid w h f) = w := by
  cases h with
  | zero => exact absurd rfl hh
  | succ n => simp [mkGrid, imgW, List.range_succ_eq_map]

theorem imgW_of_imgH_zero {α : Type} (im : List (List α)) (h : imgH im = 0) :
    imgW im = 0 := by
  rcases List.length_eq_zero.mp h with rfl
  rfl

theorem imgH_toRGB (im : List (List RGBA)) : imgH (toRGB im) = imgH im := by
  simp [toRGB, imgH]

theorem imgW_toRGB (im : List (List RGBA)) : imgW (toRGB im) = imgW im := by
  cases im <;> simp [toRGB, imgW]

theorem imgH_resizeImg (im : List (List RGBA)) (w h : Nat) :
    imgH (resizeImg im w h) = h :=
  imgH_mkGrid _ _ _

theorem imgW_resizeImg_pos (im : List (List RGBA)) (w h : Nat) (hh : h ≠ 0) :
    imgW (resizeImg im w h) = w :=
  imgW_mkGrid_pos _ _ _ hh

theorem imgH_alphaComposite (d s : List (List RGBA)) :
    imgH (alphaComposite d s) = imgH d :=
  imgH_mkGrid _ _ _

theorem imgW_alphaComposite (d s : List (List RGBA)) :
    imgW (alphaComposite d s) = imgW d := by
  by_cases h : imgH d = 0
  · rw [imgW_of_imgH_zero d h]
    unfold alphaComposite
    rw [h]
    rfl
  · exact imgW_mkGrid_pos _ _ _ h

/-! ## C7: parse_date tries formats in order and never fails -/

/-- C7. For every input string, parse_date returns the first format
that parses (the timezone format first, the plain format second), and
on total failure it warns and returns the wall clock; it is total, so
the caller always receives a timestamp. -/
theorem parse_date_spec (now : DateTime) (s : String) :
    (∀ d, strptimeWithTz s = some d → parse_date now s = (d, false)) ∧
    (strptimeWithTz s = none →
      ∀ d, strptimeNoTz s = some d → parse_date now s = (d, false)) ∧
    (strptimeWithTz s = none → strptimeNoTz s = none →
      parse_date now s = (now, true)) := by
  cases h1 : strptimeWithTz s with
  | some d1 =>
    refine ⟨?_, ?_, ?_⟩
    · intro d hd
      obtain rfl := Option.some.inj hd
      simp [parse_date, tryFormats, h1]
    · intro hn; exact Option.noConfusion hn
    · intro hn; exact Option.noConfusion hn
  | none =>
    cases h2 : strptimeNoTz s with
    | some d2 =>
      refine ⟨?_, ?_, ?_⟩
      · intro d hd; exact Option.noConfusion hd
      · intro _ d hd
        obtain rfl := Option.some.inj hd
        simp [parse_date, tryFormats, h1, h2]
      · intro _ hn; exact Option.noConfusion hn
    | none =>
      refine ⟨?_, ?_, ?_⟩
      · intro d hd; exact Option.noConfusion hd
      · intro _ d hd; exact Option.noConfusion hd
      · intro _ _
        simp [parse_date, tryFormats, h1, h2]

/-- C7 witness. -/
theorem parse_date_spec_witness :
    parse_date dtNow "2023-05-01 10:00:00 UTC" = (⟨2023, 5, 1, 10, 0, 0⟩, false) :=
  (parse_date_spec dtNow "2023-05-01 10:00:00 UTC").1 ⟨2023, 5, 1, 10, 0, 0⟩ (by decide)

/-! ## C8: extension inference -/

/-- C8. For every media-type label and reference string: when some
recognized extension is a case-insensitive suffix of the reference, the
result is a recognized extension that is such a suffix (and there is
exactly one such extension, so the suffix always wins over the label);
otherwise the result is decided by the label keywords zip, video, and
image or photo or snap, in that order, defaulting to the empty
string. -/
theorem guess_extension_spec (media_type url : String) :
    ((∃ e ∈ recognizedExts, strEndsWith (strLower url) e = true) →
       guess_extension media_type url ∈ recognizedExts ∧
       strEndsWith (strLower url) (guess_extension media_type url) = true) ∧
    ((∀ e ∈ recognizedExts, strEndsWith (strLower url) e = false) →
       guess_extension media_type url =
         (if strIn "zip" (strLower media_type) then ".zip"
          else if strIn "video" (strLower media_type) then ".mp4"
          else if strIn "image" (strLower media_type) || strIn "photo" (strLower media_type)
               || strIn "snap" (strLower media_type) then ".jpg"
          else "")) ∧
    (∀ e1 ∈ recognizedExts, ∀ e2 ∈ recognizedExts,
       strEndsWith (strLower url) e1 = true → strEndsWith (strLower url) e2 = true →
       e1 = e2) := by
  refine ⟨?_, ?_, ?_⟩
  · intro hex
    have hs := findExtOf_isSome (u := strLower url) (l := recognizedExts) hex
    rcases Option.isSome_iff_exists.mp hs with ⟨e, he⟩
    have hme := findExtOf_mem he
    unfold guess_extension
    rw [he]
    exact hme
  · intro hall
    unfold guess_extension
    rw [findExtOf_none hall]
  · intro e1 h1 e2 h2 hu1 hu2
    rcases Nat.le_total e1.toList.length e2.toList.length with hle | hle
    · exact recExts_suffix_unique e1 h1 e2 h2 hle (endsWith_both_eq hu1 hu2 hle)
    · exact (recExts_suffix_unique e2 h2 e1 h1 hle (endsWith_both_eq hu2 hu1 hle)).symm

/-- C8 witness. -/
theorem guess_extension_spec_witness :
    guess_extension "photo" "http://X/A.JPG" ∈ recognizedExts ∧
    strEndsWith (strLower "http://X/A.JPG") (guess_extension "photo" "http://X/A.JPG") = true :=
  (guess_extension_spec "photo" "http://X/A.JPG").1 (by decide)

/-! ## C3: base and overlay selection -/

/-- C3. pick_base_and_overlay agrees with the claim-side selection rule
everywhere: no image name means no base (and the archive is skipped
untouched by the merge step); otherwise the base is the first
media-containing image name, else the first non-png image name, else
the first image name, and the overlay is the first png image name other
than the base. -/
theorem pick_base_and_overlay_spec (names : List String) (st : FS2) (a : Archive)
    (entries : List ZEntry) :
    pick_base_and_overlay names = pickSpec names ∧
    ((entries.map (fun e => e.ename)).filter (fun n => is_image_filename n) = [] →
      merge_image_zip st a entries = (st, Stage2Res.imageSkip)) := by
  constructor
  · unfold pick_base_and_overlay pickSpec
    cases himgs : names.filter (fun n => is_image_filename n) with
    | nil => rfl
    | cons i0 rest =>
      simp only []
      cases hm : (i0 :: rest).find? (fun n => strIn "media" (strLower n)) with
      | some m =>
        have hh : ((i0 :: rest).filter (fun n => strIn "media" (strLower n))).head? = some m := by
          rw [headD_filter_eq_find, hm]
        cases hf : (i0 :: rest).filter (fun n => strIn "media" (strLower n)) with
        | nil => rw [hf] at hh; cases hh
        | cons c cs =>
          rw [hf] at hh
          obtain rfl := Option.some.inj hh
          simp [hf]
      | none =>
        have hh : ((i0 :: rest).filter (fun n => strIn "media" (strLower n))).head? = none := by
          rw [headD_filter_eq_find, hm]
        have hf : (i0 :: rest).filter (fun n => strIn "media" (strLower n)) = [] :=
          List.head?_eq_none_iff.mp hh
        cases hnp : (i0 :: rest).find? (fun n => !(strEndsWith (strLower n) ".png")) with
        | some np =>
          have hh2 : ((i0 :: rest).filter
              (fun n => !(strEndsWith (strLower n) ".png"))).head? = some np := by
            rw [headD_filter_eq_find, hnp]
          cases hf2 : (i0 :: rest).filter (fun n => !(strEndsWith (strLower n) ".png")) with
          | nil => rw [hf2] at hh2; cases hh2
          | cons c cs =>
            rw [hf2] at hh2
            obtain rfl := Option.some.inj hh2
            simp [hf, hf2]
        | none =>
          have hh2 : ((i0 :: rest).filter
              (fun n => !(strEndsWith (strLower n) ".png"))).head? = none := by
            rw [headD_filter_eq_find, hnp]
          have hf2 : (i0 :: rest).filter (fun n => !(strEndsWith (strLower n) ".png")) = [] :=
            List.head?_eq_none_iff.mp hh2
          simp [hf, hf2]
  · intro h
    have hpick : pick_base_and_overlay (entries.map (fun e => e.ename)) = (none, none) := by
      unfold pick_base_and_overlay
      rw [h]
    unfold merge_image_zip
    rw [hpick]

/-- C3 witness. -/
theorem pick_base_and_overlay_spec_witness :
    merge_image_zip fsImg aImg [] = (fsImg, Stage2Res.imageSkip) :=
  (pick_base_and_overlay_spec [] fsImg aImg []).2 (by decide)

/-! ## C4: merged dimensions equal the base dimensions -/

/-- C4. The merged raster always carries the dimensions of the base:
with no overlay the merge is the base flattened to RGB; with an
overlay of different size, the overlay (never the base) is resampled to
exactly the base dimensions before compositing. -/
theorem merged_image_dimensions (base : List (List RGBA))
    (ovOpt : Option (List (List RGBA))) :
    imgW (mergeDecoded base ovOpt) = imgW base ∧
    imgH (mergeDecoded base ovOpt) = imgH base ∧
    mergeDecoded base none = toRGB base ∧
    (∀ ov, ovOpt = some ov → imgSize ov ≠ imgSize base →
      mergeDecoded base ovOpt =
        toRGB (alphaComposite base (resizeImg ov (imgW base) (imgH base))) ∧
      imgSize (resizeImg ov (imgW base) (imgH base)) = imgSize base) := by
  refine ⟨?_, ?_, rfl, ?_⟩
  · cases ovOpt with
    | none => simp [mergeDecoded, imgW_toRGB]
    | some ov => simp [mergeDecoded, imgW_toRGB, imgW_alphaComposite]
  · cases ovOpt with
    | none => simp [mergeDecoded, imgH_toRGB]
    | some ov => simp [mergeDecoded, imgH_toRGB, imgH_alphaComposite]
  · rintro ov rfl hne
    constructor
    · show toRGB (alphaComposite base
          (if imgSize ov != imgSize base then resizeImg ov (imgW base) (imgH base) else ov)) =
        toRGB (alphaComposite base (resizeImg ov (imgW base) (imgH base)))
      rw [if_pos (by simpa [bne_iff_ne] using hne)]
    · unfold imgSize
      rw [imgH_resizeImg]
      by_cases hh : imgH base = 0
      · rw [imgW_of_imgH_zero base hh, hh]
        have hz : resizeImg ov 0 0 = [] := by
          simp [resizeImg, mkGrid]
        rw [hz]
        rfl
      · rw [imgW_resizeImg_pos _ _ _ hh]

/-- C4 witness. -/
theorem merged_image_dimensions_witness :
    mergeDecoded base2x2 (some ov1x1) =
      toRGB (alphaComposite base2x2 (resizeImg ov1x1 (imgW base2x2) (imgH base2x2))) :=
  ((merged_image_dimensions base2x2 (some ov1x1)).2.2.2 ov1x1 rfl (by decide)).1

/-! ## C5: video presence decides the path -/

theorem merge_res_not_video (st : FS2) (a : Archive) (es : List ZEntry) :
    isVideoRes (merge_image_zip st a es).2 = false := by
  unfold merge_image_zip
  rcases hp : pick_base_and_overlay (es.map (fun e => e.ename)) with ⟨bn, ov⟩
  rw [hp]
  cases bn with
  | none => rfl
  | some b =>
    cases hbd : (zread es b).bind decodeImage with
    | none => simp [hbd, isVideoRes]
    | some bi =>
      cases ov with
      | none => simp [hbd, isVideoRes]
      | some o =>
        cases hod : (zread es o).bind decodeImage with
        | none => simp [hbd, hod, isVideoRes]
        | some oi => simp [hbd, hod, isVideoRes]

theorem extract_res_video (st : FS2) (a : Archive) (es : List ZEntry) :
    isVideoRes (extract_video_zip_to_folder st a es).2 = true := by
  unfold extract_video_zip_to_folder
  by_cases h : (extractLoop a.amtime ((lookupS (pstem a.aname) st.extracted).getD []) es).2
  · rw [if_pos h]
    rfl
  · rw [if_neg h]
    rfl

/-- C5. For every archive whose content enumerates, the video path is
taken exactly when some entry name has a video extension, image entries
or no entries at all notwithstanding; otherwise the image path is
taken. -/
theorem stage2_video_classification (st : FS2) (a : Archive) (es : List ZEntry)
    (h : a.content = some es) :
    isVideoRes (stage2ProcessOne st a).2 = true ↔
      ∃ n ∈ es.map (fun e => e.ename), is_video_filename n = true := by
  have hvid := extract_res_video st a es
  have himg := merge_res_not_video st a es
  unfold stage2ProcessOne
  simp only [h]
  by_cases hv : (es.map (fun e => e.ename)).any is_video_filename = true
  · rw [if_pos hv]
    exact iff_of_true hvid (List.any_eq_true.mp hv)
  · rw [if_neg hv]
    refine iff_of_false ?_ ?_
    · simp [himg]
    · intro hex
      exact absurd (List.any_eq_true.mpr hex) hv

/-- C5 witness. -/
theorem stage2_video_classification_witness :
    isVideoRes (stage2ProcessOne fsVid aVid).2 = true :=
  (stage2_video_classification fsVid aVid
    [⟨"v.mp4", some [1, 2]⟩, ⟨"p.jpg", some bytes1x1⟩] rfl).mpr (by decide)

/-! ## Stage-2 bookkeeping lemmas -/

theorem extractLoop_ok (mt : DateTime) :
    ∀ (es : List ZEntry) (files : List ExtFile),
      (extractLoop mt files es).2 = videoExtractOK es := by
  intro es
  induction es with
  | nil => intro files; rfl
  | cons e t ih =>
    intro files
    unfold extractLoop videoExtractOK
    cases hd : zIsDir e with
    | true =>
      rw [if_pos rfl]
      simp [List.all_cons, hd, ih files, videoExtractOK]
    | false =>
      rw [if_neg (by simp)]
      cases he : e.edata with
      | none => simp [List.all_cons, hd, he]
      | some bs =>
        simp only []
        rw [ih]
        simp [List.all_cons, hd, he, videoExtractOK]

theorem putFile_self (g : ExtFile) (l : List ExtFile) : g ∈ putFile g l :=
  List.mem_append_right _ (List.mem_singleton_self g)

theorem putFile_presence {g : ExtFile} {l : List ExtFile} {nm : String} {mt : DateTime}
    (hg : g.fmtime = mt) (h : ∃ f ∈ l, f.fname = nm ∧ f.fmtime = mt) :
    ∃ f ∈ putFile g l, f.fname = nm ∧ f.fmtime = mt := by
  by_cases hgn : g.fname = nm
  · exact ⟨g, putFile_self g l, hgn, hg⟩
  · rcases h with ⟨f, hf, h1, h2⟩
    refine ⟨f, List.mem_append_left _ ?_, h1, h2⟩
    rw [List.mem_filter]
    refine ⟨hf, ?_⟩
    simp only [bne_iff_ne, ne_eq]
    intro habs
    exact hgn (by rw [← habs, h1])

theorem putFile_mem {g f : ExtFile} {l : List ExtFile} (h : f ∈ putFile g l) :
    f ∈ l ∨ f = g := by
  rcases List.mem_append.mp h with hm | hm
  · exact Or.inl (List.mem_filter.mp hm).1
  · exact Or.inr (List.mem_singleton.mp hm)

theorem extractLoop_presence (mt : DateTime) (nm : String) :
    ∀ (es : List ZEntry) (files : List ExtFile),
      (∃ f ∈ files, f.fname = nm ∧ f.fmtime = mt) →
      ∃ f ∈ (extractLoop mt files es).1, f.fname = nm ∧ f.fmtime = mt := by
  intro es
  induction es with
  | nil => intro files h; exact h
  | cons e t ih =>
    intro files h
    unfold extractLoop
    cases hd : zIsDir e with
    | true =>
      rw [if_pos rfl]
      exact ih files h
    | false =>
      rw [if_neg (by simp)]
      cases he : e.edata with
      | none => exact h
      | some bs =>
        simp only []
        exact ih _ (putFile_presence rfl h)

theorem extractLoop_extracts (mt : DateTime) :
    ∀ (es : List ZEntry) (files : List ExtFile),
      (extractLoop mt files es).2 = true →
      ∀ e ∈ es, zIsDir e = false →
        ∃ f ∈ (extractLoop mt files es).1, f.fname = e.ename ∧ f.fmtime = mt := by
  intro es
  induction es with
  | nil => intro files _ e he; cases he
  | cons e0 t ih =>
    intro files hok e he hd
    rcases List.mem_cons.mp he with rfl | hm
    · unfold extractLoop
      rw [if_neg (by simp [hd])]
      cases he0 : e.edata with
      | none =>
        exfalso
        unfold extractLoop at hok
        rw [if_neg (by simp [hd]), he0] at hok
        cases hok
      | some bs =>
        simp only []
        exact extractLoop_presence mt e.ename t _
          ⟨⟨e.ename, mt, bs⟩, putFile_self _ files, rfl, rfl⟩
    · unfold extractLoop
      unfold extractLoop at hok
      cases hd0 : zIsDir e0 with
      | true =>
        rw [if_pos rfl]
        rw [if_pos (by rw [hd0])] at hok
        exact ih files hok e hm hd
      | false =>
        rw [if_neg (by simp)]
        rw [if_neg (by simp [hd0])] at hok
        cases he0 : e0.edata with
        | none => rw [he0] at hok; cases hok
        | some bs =>
          rw [he0] at hok
          simp only []
          exact ih _ hok e hm hd

theorem extractLoop_mtimes (mt : DateTime) :
    ∀ (es : List ZEntry) (files : List ExtFile),
      ∀ f ∈ (extractLoop mt files es).1, f ∈ files ∨ f.fmtime = mt := by
  intro es
  induction es with
  | nil => intro files f hf; exact Or.inl hf
  | cons e t ih =>
    intro files f hf
    unfold extractLoop at hf
    cases hd : zIsDir e with
    | true =>
      rw [if_pos (by rw [hd])] at hf
      exact ih files f hf
    | false =>
      rw [if_neg (by simp [hd])] at hf
      cases he : e.edata with
      | none => rw [he] at hf; exact Or.inl hf
      | some bs =>
        rw [he] at hf
        simp only [] at hf
        rcases ih _ f hf with hmem | hmt
        · rcases putFile_mem hmem with hmem2 | rfl
          · exact Or.inl hmem2
          · exact Or.inr rfl
        · exact Or.inr hmt

theorem lookupS_setS_self {β : Type} (k : String) (v : β) (l : List (String × β)) :
    lookupS k (setS k v l) = some v := by
  simp [setS, lookupS]

theorem lookupS_mem {β : Type} {k : String} {v : β} :
    ∀ {l : List (String × β)}, lookupS k l = some v → ∃ kv ∈ l, kv.1 = k ∧ kv.2 = v := by
  intro l
  induction l with
  | nil => intro h; cases h
  | cons kv t ih =>
    intro h
    unfold lookupS at h
    by_cases hk : kv.1 == k
    · rw [if_pos hk] at h
      exact ⟨kv, List.mem_cons_self kv t, eq_of_beq hk, Option.some.inj h⟩
    · rw [if_neg hk] at h
      rcases ih h with ⟨kv2, hm, h1, h2⟩
      exact ⟨kv2, List.mem_cons_of_mem kv hm, h1, h2⟩

theorem archivePresent_delete (nm : String) (l : List Archive) :
    (deleteArchive nm l).any (fun a => a.aname == nm) = false := by
  induction l with
  | nil => rfl
  | cons b t ih =>
    unfold deleteArchive at ih ⊢
    by_cases hb : b.aname = nm
    · simp [List.filter_cons, hb, ih]
    · simp [List.filter_cons, hb, ih]

/-! ## Stage-2 branch fact lemmas -/

theorem merge_ok_facts (st : FS2) (a : Archive) (es : List ZEntry)
    (hok : imageMergeOK es = true) :
    (merge_image_zip st a es).2 = Stage2Res.imageDone ∧
    (merge_image_zip st a es).1.archives = deleteArchive a.aname st.archives ∧
    ∃ img, lookupS (mergedName a) (merge_image_zip st a es).1.merged =
      some (a.amtime, img) := by
  unfold imageMergeOK at hok
  unfold merge_image_zip
  rcases hp : pick_base_and_overlay (es.map (fun e => e.ename)) with ⟨bn, ov⟩
  cases bn with
  | none => simp only [hp] at hok; cases hok
  | some b =>
    simp only [hp] at hok ⊢
    simp only [Bool.and_eq_true] at hok
    rcases hok with ⟨h1, h2⟩
    rcases Option.isSome_iff_exists.mp h1 with ⟨bi, hbd⟩
    simp only [hbd]
    cases ov with
    | none =>
      refine ⟨by trivial, by trivial, mergeDecoded bi none, ?_⟩
      exact lookupS_setS_self _ _ _
    | some o =>
      simp only [] at h2
      rcases Option.isSome_iff_exists.mp h2 with ⟨oi, hod⟩
      simp only [hod]
      refine ⟨by trivial, by trivial, mergeDecoded bi (some oi), ?_⟩
      exact lookupS_setS_self _ _ _

theorem merge_fail_facts (st : FS2) (a : Archive) (es : List ZEntry)
    (hok : imageMergeOK es = false) :
    (merge_image_zip st a es).1 = st ∧
    isErrOrSkip (merge_image_zip st a es).2 = true := by
  unfold imageMergeOK at hok
  unfold merge_image_zip
  rcases hp : pick_base_and_overlay (es.map (fun e => e.ename)) with ⟨bn, ov⟩
  simp only [hp] at hok ⊢
  cases bn with
  | none => exact ⟨by trivial, by trivial⟩
  | some b =>
    simp only [] at hok ⊢
    cases hbd : (zread es b).bind decodeImage with
    | none => simp only [hbd]; exact ⟨by trivial, by trivial⟩
    | some bi =>
      simp only [hbd] at hok ⊢
      cases ov with
      | none => simp at hok
      | some o =>
        cases hod : (zread es o).bind decodeImage with
        | none => simp only [hod]; exact ⟨by trivial, by trivial⟩
        | some oi => simp only [hod] at hok; simp at hok

theorem merge_mtimes (st : FS2) (a : Archive) (es : List ZEntry) :
    (∀ m ∈ (merge_image_zip st a es).1.merged, m ∈ st.merged ∨ m.2.1 = a.amtime) ∧
    (merge_image_zip st a es).1.extracted = st.extracted := by
  have hset : ∀ (img : List (List RGB)) (m : String × DateTime × List (List RGB)),
      m ∈ setS (mergedName a) (a.amtime, img) st.merged →
      m ∈ st.merged ∨ m.2.1 = a.amtime := by
    intro img m hm
    rcases List.mem_cons.mp hm with rfl | hm2
    · exact Or.inr rfl
    · exact Or.inl (List.mem_filter.mp hm2).1
  unfold merge_image_zip
  rcases hp : pick_base_and_overlay (es.map (fun e => e.ename)) with ⟨bn, ov⟩
  simp only [hp]
  cases bn with
  | none => exact ⟨fun m hm => Or.inl hm, by trivial⟩
  | some b =>
    simp only []
    cases hbd : (zread es b).bind decodeImage with
    | none => simp only [hbd]; exact ⟨fun m hm => Or.inl hm, by trivial⟩
    | some bi =>
      simp only [hbd]
      cases ov with
      | none => exact ⟨hset _, by trivial⟩
      | some o =>
        cases hod : (zread es o).bind decodeImage with
        | none => simp only [hod]; exact ⟨fun m hm => Or.inl hm, by trivial⟩
        | some oi => simp only [hod]; exact ⟨hset _, by trivial⟩

theorem extract_ok_facts (st : FS2) (a : Archive) (es : List ZEntry)
    (hok : videoExtractOK es = true) :
    (extract_video_zip_to_folder st a es).2 = Stage2Res.videoDone ∧
    (extract_video_zip_to_folder st a es).1.archives = deleteArchive a.aname st.archives ∧
    ∃ files, lookupS (pstem a.aname) (extract_video_zip_to_folder st a es).1.extracted =
        some files ∧
      ∀ e ∈ es, zIsDir e = false →
        ∃ f ∈ files, f.fname = e.ename ∧ f.fmtime = a.amtime := by
  have hloop : (extractLoop a.amtime ((lookupS (pstem a.aname) st.extracted).getD []) es).2
      = true := by
    rw [extractLoop_ok]; exact hok
  unfold extract_video_zip_to_folder
  rw [if_pos hloop]
  refine ⟨rfl, rfl, _, lookupS_setS_self _ _ _, ?_⟩
  exact extractLoop_extracts a.amtime es _ hloop

theorem extract_fail_facts (st : FS2) (a : Archive) (es : List ZEntry)
    (hok : videoExtractOK es = false) :
    (extract_video_zip_to_folder st a es).1.archives = st.archives ∧
    isErrOrSkip (extract_video_zip_to_folder st a es).2 = true := by
  have hloop : (extractLoop a.amtime ((lookupS (pstem a.aname) st.extracted).getD []) es).2
      = false := by
    rw [extractLoop_ok]; exact hok
  unfold extract_video_zip_to_folder
  rw [if_neg (by simp [hloop])]
  exact ⟨rfl, rfl⟩

theorem extract_mtimes (st : FS2) (a : Archive) (es : List ZEntry) :
    (extract_video_zip_to_folder st a es).1.merged = st.merged ∧
    (∀ fd ∈ (extract_video_zip_to_folder st a es).1.extracted, ∀ f ∈ fd.2,
      (∃ fd0 ∈ st.extracted, fd0.1 = fd.1 ∧ f ∈ fd0.2) ∨ f.fmtime = a.amtime) := by
  have hmem : ∀ fd ∈ setS (pstem a.aname)
      (extractLoop a.amtime ((lookupS (pstem a.aname) st.extracted).getD []) es).1
      st.extracted, ∀ f ∈ fd.2,
      (∃ fd0 ∈ st.extracted, fd0.1 = fd.1 ∧ f ∈ fd0.2) ∨ f.fmtime = a.amtime := by
    intro fd hfd f hf
    rcases List.mem_cons.mp hfd with rfl | hfd2
    · rcases extractLoop_mtimes a.amtime es _ f hf with hmem0 | hmt
      · cases hl : lookupS (pstem a.aname) st.extracted with
        | none => rw [hl] at hmem0; cases hmem0
        | some l0 =>
          rw [hl] at hmem0
          rcases lookupS_mem hl with ⟨fd0, hfd0, hk, hv⟩
          exact Or.inl ⟨fd0, hfd0, hk, by rw [hv]; exact hmem0⟩
      · exact Or.inr hmt
    · exact Or.inl ⟨fd, (List.mem_filter.mp hfd2).1, rfl, hf⟩
  unfold extract_video_zip_to_folder
  by_cases hloop : (extractLoop a.amtime ((lookupS (pstem a.aname) st.extracted).getD []) es).2
  · rw [if_pos hloop]
    exact ⟨rfl, hmem⟩
  · rw [if_neg hloop]
    exact ⟨rfl, hmem⟩

/-! ## C1: archive deletion safety -/

/-- C1. For every archive processed in stage 2: the archive is removed
from disk exactly when its resolution ran to completion; on completion
the derived output is fully on disk (every non-directory member of a
video archive extracted with the archive timestamp, or the merged image
under the merged name with the archive timestamp); on any error or on a
missing base the archive list is untouched and the outcome is a logged
error or skip; and the loop always continues with the remaining
archives. -/
theorem stage2_archive_deletion_safety (st : FS2) (a : Archive)
    (ha : archivePresent st a.aname = true) :
    (archivePresent (stage2ProcessOne st a).1 a.aname = false ↔
      archiveResolveOK a = true) ∧
    (∀ es, a.content = some es →
      ((es.map (fun e => e.ename)).any is_video_filename = true →
        videoExtractOK es = true →
        ∃ files, lookupS (pstem a.aname) (stage2ProcessOne st a).1.extracted = some files ∧
          ∀ e ∈ es, zIsDir e = false →
            ∃ f ∈ files, f.fname = e.ename ∧ f.fmtime = a.amtime) ∧
      ((es.map (fun e => e.ename)).any is_video_filename = false →
        imageMergeOK es = true →
        ∃ img, lookupS (mergedName a) (stage2ProcessOne st a).1.merged =
          some (a.amtime, img))) ∧
    (archiveResolveOK a = false →
      (stage2ProcessOne st a).1.archives = st.archives ∧
      isErrOrSkip (stage2ProcessOne st a).2 = true) ∧
    (∀ rest, stage2loop st (a :: rest) =
      ((stage2loop (stage2ProcessOne st a).1 rest).1,
       (stage2ProcessOne st a).2 :: (stage2loop (stage2ProcessOne st a).1 rest).2)) := by
  have hloopEq : ∀ rest, stage2loop st (a :: rest) =
      ((stage2loop (stage2ProcessOne st a).1 rest).1,
       (stage2ProcessOne st a).2 :: (stage2loop (stage2ProcessOne st a).1 rest).2) :=
    fun rest => rfl
  cases hc : a.content with
  | none =>
    have hpo : stage2ProcessOne st a = (st, Stage2Res.badZip) := by
      unfold stage2ProcessOne; rw [hc]
    have hro : archiveResolveOK a = false := by
      unfold archiveResolveOK; rw [hc]
    refine ⟨?_, ?_, ?_, hloopEq⟩
    · rw [hpo, hro]
      refine iff_of_false ?_ ?_
      · intro hfalse
        rw [ha] at hfalse
        cases hfalse
      · intro habs; cases habs
    · intro es habs; exact Option.noConfusion habs
    · intro _; rw [hpo]; exact ⟨rfl, rfl⟩
  | some es =>
    have hpo : stage2ProcessOne st a =
        (if ((es.map (fun e => e.ename)).any is_video_filename) = true then
          extract_video_zip_to_folder st a es
        else merge_image_zip st a es) := by
      unfold stage2ProcessOne; rw [hc]
    have hro : archiveResolveOK a =
        (if ((es.map (fun e => e.ename)).any is_video_filename) = true then
          videoExtractOK es
        else imageMergeOK es) := by
      unfold archiveResolveOK; rw [hc]
    cases hv : (es.map (fun e => e.ename)).any is_video_filename with
    | true =>
      rw [if_pos hv] at hpo
      rw [if_pos hv] at hro
      cases hok : videoExtractOK es with
      | true =>
        obtain ⟨hres, harch, files, hlook, hfiles⟩ := extract_ok_facts st a es hok
        refine ⟨iff_of_true ?_ ?_, ?_, ?_, hloopEq⟩
        · rw [hpo]
          unfold archivePresent
          rw [harch]
          exact archivePresent_delete a.aname st.archives
        · rw [hro]; exact hok
        · intro es2 hc2
          obtain rfl := Option.some.inj hc2
          constructor
          · intro _ _
            rw [hpo]
            exact ⟨files, hlook, hfiles⟩
          · intro hfalse _
            rw [hv] at hfalse
            cases hfalse
        · intro habs
          rw [hro, hok] at habs
          cases habs
      | false =>
        obtain ⟨harch, herr⟩ := extract_fail_facts st a es hok
        refine ⟨iff_of_false ?_ ?_, ?_, ?_, hloopEq⟩
        · intro hfalse
          rw [hpo] at hfalse
          unfold archivePresent at hfalse ha
          rw [harch, ha] at hfalse
          cases hfalse
        · intro habs
          rw [hro, hok] at habs
          cases habs
        · intro es2 hc2
          obtain rfl := Option.some.inj hc2
          constructor
          · intro _ hok2
            rw [hok] at hok2
            cases hok2
          · intro hfalse _
            rw [hv] at hfalse
            cases hfalse
        · intro _
          rw [hpo]
          exact ⟨harch, herr⟩
    | false =>
      have hvf : ¬(((es.map (fun e => e.ename)).any is_video_filename) = true) := by
        rw [hv]; exact Bool.false_ne_true
      rw [if_neg hvf] at hpo
      rw [if_neg hvf] at hro
      cases hok : imageMergeOK es with
      | true =>
        obtain ⟨hres, harch, img, hlook⟩ := merge_ok_facts st a es hok
        refine ⟨iff_of_true ?_ ?_, ?_, ?_, hloopEq⟩
        · rw [hpo]
          unfold archivePresent
          rw [harch]
          exact archivePresent_delete a.aname st.archives
        · rw [hro]; exact hok
        · intro es2 hc2
          obtain rfl := Option.some.inj hc2
          constructor
          · intro htrue _
            rw [hv] at htrue
            cases htrue
          · intro _ _
            rw [hpo]
            exact ⟨img, hlook⟩
        · intro habs
          rw [hro, hok] at habs
          cases habs
      | false =>
        obtain ⟨hst, herr⟩ := merge_fail_facts st a es hok
        refine ⟨iff_of_false ?_ ?_, ?_, ?_, hloopEq⟩
        · intro hfalse
          rw [hpo, hst, ha] at hfalse
          cases hfalse
        · intro habs
          rw [hro, hok] at habs
          cases habs
        · intro es2 hc2
          obtain rfl := Option.some.inj hc2
          constructor
          · intro htrue _
            rw [hv] at htrue
            cases htrue
          · intro _ hok2
            rw [hok] at hok2
            cases hok2
        · intro _
          constructor
          · rw [hpo, hst]
          · rw [hpo]; exact herr

/-- C1 witness. -/
theorem stage2_archive_deletion_safety_witness :
    archivePresent (stage2ProcessOne fsImg aImg).1 aImg.aname = false :=
  (stage2_archive_deletion_safety fsImg aImg (by decide)).1.mpr (by decide)

/-! ## C6: timestamp propagation -/

theorem processZipBlob_mtime (dt : DateTime) (fn : String) (i : Nat) (es : List ZEntry)
    (f : DFile) (h : processZipBlob dt fn i es = RowResult.ok f) : f.mtime = dt := by
  unfold processZipBlob at h
  cases hrw : rewrite_zip_in_place dt i es with
  | none =>
    rw [hrw] at h
    injection h
  | some es2 =>
    rw [hrw] at h
    injection h with h2
    subst h2
    rfl

/-- C6. Every derived artifact carries the resolved capture timestamp:
a downloaded file is stamped with the timestamp resolved from its row,
and every merged image or extracted member written by stage 2 is
stamped with the mtime of its container archive (everything else in
those listings was already there), never the processing time. -/
theorem timestamp_propagation :
    (∀ now i r f, processRow now i r = RowResult.ok f →
      f.mtime = (parse_date now r.dateText).1) ∧
    (∀ st a,
      (∀ m ∈ (stage2ProcessOne st a).1.merged, m ∈ st.merged ∨ m.2.1 = a.amtime) ∧
      (∀ fd ∈ (stage2ProcessOne st a).1.extracted, ∀ f ∈ fd.2,
        (∃ fd0 ∈ st.extracted, fd0.1 = fd.1 ∧ f ∈ fd0.2) ∨ f.fmtime = a.amtime)) := by
  constructor
  · intro now i r f h
    unfold processRow at h
    cases hu : r.url with
    | none => rw [hu] at h; cases h
    | some u =>
      simp only [hu] at h
      cases hb : r.blob with
      | none => rw [hb] at h; cases h
      | some b =>
        simp only [hb] at h
        cases b with
        | raw bs =>
          injection h with h2
          subst h2
          rfl
        | zip es =>
          exact processZipBlob_mtime _ _ _ _ _ h
  · intro st a
    cases hc : a.content with
    | none =>
      have hpo : stage2ProcessOne st a = (st, Stage2Res.badZip) := by
        unfold stage2ProcessOne; rw [hc]
      rw [hpo]
      exact ⟨fun m hm => Or.inl hm, fun fd hfd f hf => Or.inl ⟨fd, hfd, rfl, hf⟩⟩
    | some es =>
      have hpo : stage2ProcessOne st a =
          (if ((es.map (fun e => e.ename)).any is_video_filename) = true then
            extract_video_zip_to_folder st a es
          else merge_image_zip st a es) := by
        unfold stage2ProcessOne; rw [hc]
      cases hv : (es.map (fun e => e.ename)).any is_video_filename with
      | true =>
        rw [if_pos hv] at hpo
        rw [hpo]
        obtain ⟨hm, hx⟩ := extract_mtimes st a es
        constructor
        · rw [hm]
          exact fun m hmm => Or.inl hmm
        · exact hx
      | false =>
        have hvf : ¬(((es.map (fun e => e.ename)).any is_video_filename) = true) := by
          rw [hv]; exact Bool.false_ne_true
        rw [if_neg hvf] at hpo
        rw [hpo]
        obtain ⟨hm, hx⟩ := merge_mtimes st a es
        constructor
        · exact hm
        · rw [hx]
          exact fun fd hfd f hf => Or.inl ⟨fd, hfd, rfl, hf⟩

/-- C6 witness. -/
theorem timestamp_propagation_witness :
    (DFile.mk "2023-05-01_10-00-00_image_1.jpg" dtA (Blob.raw [1, 2, 3])).mtime =
      (parse_date dtNow rowRaw.dateText).1 :=
  timestamp_propagation.1 dtNow 1 rowRaw
    (DFile.mk "2023-05-01_10-00-00_image_1.jpg" dtA (Blob.raw [1, 2, 3])) (by decide)

/-! ## Digit and padding lemmas -/

theorem digitChar_isDigit : ∀ r : Nat, (digitChar r).isDigit = true := by
  intro r
  rcases r with _|_|_|_|_|_|_|_|_|r <;> rfl

theorem decDigitsAux_digits : ∀ (fuel n : Nat), ∀ c ∈ decDigitsAux fuel n,
    c.isDigit = true := by
  intro fuel
  induction fuel with
  | zero => intro n c hc; cases hc
  | succ f ih =>
    intro n c hc
    cases n with
    | zero => cases hc
    | succ m =>
      unfold decDigitsAux at hc
      rcases List.mem_append.mp hc with hm | hm
      · exact ih _ c hm
      · rw [List.mem_singleton.mp hm]
        exact digitChar_isDigit _

theorem decDigitsAux_length : ∀ (fuel n k : Nat), n < 10 ^ k →
    (decDigitsAux fuel n).length ≤ k := by
  intro fuel
  induction fuel with
  | zero => intro n k _; simp [decDigitsAux]
  | succ f ih =>
    intro n k hn
    cases n with
    | zero => simp [decDigitsAux]
    | succ m =>
      cases k with
      | zero =>
        rw [pow_zero] at hn
        omega
      | succ k2 =>
        unfold decDigitsAux
        rw [List.length_append]
        have hdiv : (m + 1) / 10 < 10 ^ k2 := by
          rw [Nat.div_lt_iff_lt_mul (by decide : (0:Nat) < 10)]
          calc m + 1 < 10 ^ (k2 + 1) := hn
            _ = 10 ^ k2 * 10 := by rw [pow_succ]
        have hih := ih ((m + 1) / 10) k2 hdiv
        simp only [List.length_singleton]
        omega

theorem decDigitsZ_digits (n : Nat) : ∀ c ∈ decDigitsZ n, c.isDigit = true := by
  intro c hc
  unfold decDigitsZ at hc
  by_cases h : (n == 0) = true
  · rw [if_pos h] at hc
    rw [List.mem_singleton.mp hc]
    decide
  · rw [if_neg h] at hc
    exact decDigitsAux_digits n n c hc

theorem decDigitsZ_length_le (n : Nat) (h : n ≤ 9999) : (decDigitsZ n).length ≤ 4 := by
  unfold decDigitsZ
  by_cases h0 : (n == 0) = true
  · rw [if_pos h0]; decide
  · rw [if_neg h0]
    have h4 : (10:Nat) ^ 4 = 10000 := by norm_num
    exact decDigitsAux_length n n 4 (by omega)

theorem decDigitsZ_ne_nil (n : Nat) : decDigitsZ n ≠ [] := by
  unfold decDigitsZ
  by_cases h0 : (n == 0) = true
  · rw [if_pos h0]; simp
  · rw [if_neg h0]
    cases n with
    | zero => simp at h0
    | succ m =>
      unfold decDigits decDigitsAux
      simp

theorem padNum4_facts (y : Nat) (_h1 : 1 ≤ y) (h2 : y ≤ 9999) :
    (padNum 4 y).toList.all Char.isDigit = true ∧ (padNum 4 y).length = 4 := by
  have hlen := decDigitsZ_length_le y h2
  have hne := decDigitsZ_ne_nil y
  have hpos : 1 ≤ (decDigitsZ y).length := by
    cases hl : decDigitsZ y with
    | nil => exact absurd hl hne
    | cons c t => simp
  constructor
  · show (List.replicate (4 - (decDigitsZ y).length) '0' ++ decDigitsZ y).all
      Char.isDigit = true
    rw [List.all_append, Bool.and_eq_true]
    constructor
    · rw [List.all_eq_true]
      intro c hc
      rw [List.eq_of_mem_replicate hc]
      decide
    · rw [List.all_eq_true]
      exact decDigitsZ_digits y
  · show (List.replicate (4 - (decDigitsZ y).length) '0' ++ decDigitsZ y).length = 4
    rw [List.length_append, List.length_replicate]
    omega

theorem yearDir_is_year (dt : DateTime) (h : validDT dt) :
    is_year_folder (yearDirEntry (padNum 4 dt.year)) = true := by
  obtain ⟨h1, h2, _, _⟩ := h
  obtain ⟨hd, hl⟩ := padNum4_facts dt.year h1 h2
  show (true && (padNum 4 dt.year).toList.all Char.isDigit
    && ((padNum 4 dt.year).length == 4)) = true
  rw [hd, hl]
  rfl

/-! ## Calendar validity lemmas -/

theorem mkDatetime_valid {y mo d h mi s : Nat} {dt : DateTime}
    (hmk : mkDatetime y mo d h mi s = some dt) : validDT dt := by
  unfold mkDatetime at hmk
  by_cases hc : ((1 ≤ y && y ≤ 9999 && 1 ≤ mo && mo ≤ 12 && 1 ≤ d
      && d ≤ daysInMonth y mo && h ≤ 23 && mi ≤ 59 && s ≤ 59) : Bool) = true
  · rw [if_pos hc] at hmk
    obtain rfl := Option.some.inj hmk
    simp only [Bool.and_eq_true, decide_eq_true_eq] at hc
    show 1 ≤ y ∧ y ≤ 9999 ∧ 1 ≤ mo ∧ mo ≤ 12
    omega
  · rw [if_neg hc] at hmk
    cases hmk

theorem strptimeDate_valid {s : String} {d : DateTime}
    (h : strptimeDate s = some d) : validDT d := by
  unfold strptimeDate at h
  rcases Option.bind_eq_some.mp h with ⟨t, _, hmk⟩
  exact mkDatetime_valid hmk

theorem get_target_date_valid (e : DirEntry) (h : validDT e.dmtime) :
    validDT (get_target_date e) := by
  unfold get_target_date
  cases hs : strptimeDate (strTake e.dname 10) with
  | some d => exact strptimeDate_valid hs
  | none => exact h

/-! ## Stage-3 bookkeeping lemmas -/

theorem lookupP_none {β : Type} {k : List String} :
    ∀ {l : List (List String × β)}, lookupP k l = none →
      ∀ kv ∈ l, (kv.1 == k) = false := by
  intro l
  induction l with
  | nil => intro _ kv hkv; cases hkv
  | cons a t ih =>
    intro h kv hkv
    unfold lookupP at h
    by_cases ha : (a.1 == k) = true
    · rw [if_pos ha] at h; cases h
    · rw [if_neg ha] at h
      rcases List.mem_cons.mp hkv with rfl | hm
      · cases hb : (kv.1 == k) with
        | false => rfl
        | true => exact absurd hb ha
      · exact ih h kv hm

theorem mem_setP_of_ne {β : Type} {k : List String} {v : β}
    {l : List (List String × β)} {kv : List String × β} (hmem : kv ∈ l)
    (hne : (kv.1 == k) = false) : kv ∈ setP k v l := by
  unfold setP
  apply List.mem_cons_of_mem
  rw [List.mem_filter]
  exact ⟨hmem, by simp [bne, hne]⟩

theorem mem_addYearDir {top : List DirEntry} {nm : String} {x : DirEntry}
    (h : x ∈ addYearDir top nm) : x ∈ top ∨ x = yearDirEntry nm := by
  unfold addYearDir at h
  by_cases hc : (top.any (fun t => t.dname == nm && t.isDirE)) = true
  · rw [if_pos hc] at h; exact Or.inl h
  · rw [if_neg hc] at h
    rcases List.mem_append.mp h with hm | hm
    · exact Or.inl hm
    · exact Or.inr (List.mem_singleton.mp hm)

theorem addYearDir_nodup {top : List DirEntry} {nm : String}
    (hnd : (top.map (fun e => e.dname)).Nodup)
    (hfile : top.any (fun t => t.dname == nm && !t.isDirE) = false) :
    ((addYearDir top nm).map (fun e => e.dname)).Nodup := by
  unfold addYearDir
  by_cases hc : (top.any (fun t => t.dname == nm && t.isDirE)) = true
  · rw [if_pos hc]; exact hnd
  · rw [if_neg hc]
    rw [List.map_append]
    rw [List.nodup_append]
    refine ⟨hnd, List.nodup_singleton _, ?_⟩
    intro a ha hb
    have hb2 : a = nm := by simpa [yearDirEntry] using hb
    rcases List.mem_map.mp ha with ⟨e, he, hdn⟩
    have hdn2 : e.dname = nm := by rw [hdn, hb2]
    cases hde : e.isDirE with
    | true =>
      exact hc (List.any_eq_true.mpr ⟨e, he, by simp [hdn2, hde]⟩)
    | false =>
      have habs : top.any (fun t => t.dname == nm && !t.isDirE) = true :=
        List.any_eq_true.mpr ⟨e, he, by simp [hdn2, hde]⟩
      rw [hfile] at habs
      exact Bool.false_ne_true habs

theorem filter_map_nodup {l : List DirEntry} {p : DirEntry → Bool}
    (hnd : (l.map (fun e => e.dname)).Nodup) :
    ((l.filter p).map (fun e => e.dname)).Nodup :=
  hnd.sublist ((@List.filter_sublist _ p l).map (fun e => e.dname))

/-! ## Stage-3 step equations -/

theorem stage3step_skip (st : FS3) (e : DirEntry)
    (h : (is_year_folder e || strStartsWith e.dname ".") = true) :
    stage3step st e = (st, Step3Res.skippedE) := by
  unfold stage3step
  rw [if_pos h]

theorem stage3step_shape (st : FS3) (e : DirEntry)
    (hguard : (is_year_folder e || strStartsWith e.dname ".") = false) :
    (stage3step st e = (st, Step3Res.crashE)) ∨
    ((∃ b, stage3step st e = (movedState st e, Step3Res.moved (destFinal st e) b)) ∧
      st.top.any (fun t => t.dname == yearNameOf e && !t.isDirE) = false) := by
  unfold stage3step
  rw [if_neg (by rw [hguard]; exact Bool.false_ne_true)]
  by_cases hcr : (st.top.any (fun t => t.dname == yearNameOf e && !t.isDirE)) = true
  · rw [if_pos hcr]
    exact Or.inl rfl
  · rw [if_neg hcr]
    have hcr2 : st.top.any (fun t => t.dname == yearNameOf e && !t.isDirE) = false := by
      cases h2 : st.top.any (fun t => t.dname == yearNameOf e && !t.isDirE) with
      | false => rfl
      | true => exact absurd h2 hcr
    cases hlk : lookupP (destFinal st e) st.sub with
    | some occ =>
      simp only [occStep]
      by_cases hff : (!e.isDirE && !occ.isDirE) = true
      · rw [if_pos hff]
        exact Or.inr ⟨⟨true, rfl⟩, hcr2⟩
      · rw [if_neg hff]
        exact Or.inl rfl
    | none =>
      simp only [occStep]
      exact Or.inr ⟨⟨false, rfl⟩, hcr2⟩

theorem stage3loop_cons_skip {st : FS3} {e : DirEntry} (t : List DirEntry)
    (h : stage3step st e = (st, Step3Res.skippedE)) :
    stage3loop st (e :: t) = stage3loop st t := by
  show (match stage3step st e with
    | (st1, Step3Res.moved d b) =>
      ((stage3loop st1 t).1, Step3Res.moved d b :: (stage3loop st1 t).2.1,
        (stage3loop st1 t).2.2)
    | (st1, Step3Res.skippedE) => stage3loop st1 t
    | (st1, Step3Res.crashE) => (st1, [], false)) = stage3loop st t
  rw [h]

theorem stage3loop_cons_moved {st st1 : FS3} {e : DirEntry} {d : List String}
    {b : Bool} (t : List DirEntry) (h : stage3step st e = (st1, Step3Res.moved d b)) :
    stage3loop st (e :: t) =
      ((stage3loop st1 t).1, Step3Res.moved d b :: (stage3loop st1 t).2.1,
        (stage3loop st1 t).2.2) := by
  show (match stage3step st e with
    | (st1, Step3Res.moved d b) =>
      ((stage3loop st1 t).1, Step3Res.moved d b :: (stage3loop st1 t).2.1,
        (stage3loop st1 t).2.2)
    | (st1, Step3Res.skippedE) => stage3loop st1 t
    | (st1, Step3Res.crashE) => (st1, [], false)) = _
  rw [h]

theorem stage3loop_cons_crash {st st1 : FS3} {e : DirEntry} (t : List DirEntry)
    (h : stage3step st e = (st1, Step3Res.crashE)) :
    stage3loop st (e :: t) = (st1, [], false) := by
  show (match stage3step st e with
    | (st1, Step3Res.moved d b) =>
      ((stage3loop st1 t).1, Step3Res.moved d b :: (stage3loop st1 t).2.1,
        (stage3loop st1 t).2.2)
    | (st1, Step3Res.skippedE) => stage3loop st1 t
    | (st1, Step3Res.crashE) => (st1, [], false)) = (st1, [], false)
  rw [h]

theorem stage3loop_allskip : ∀ (l : List DirEntry) (st : FS3),
    (∀ e ∈ l, (is_year_folder e || strStartsWith e.dname ".") = true) →
    stage3loop st l = (st, [], true) := by
  intro l
  induction l with
  | nil => intro st _; rfl
  | cons e t ih =>
    intro st h
    rw [stage3loop_cons_skip t (stage3step_skip st e (h e (List.mem_cons_self e t)))]
    exact ih st (fun x hx => h x (List.mem_cons_of_mem e hx))

theorem stage3loop_post : ∀ (l : List DirEntry) (st : FS3),
    (st.top.map (fun e => e.dname)).Nodup →
    (∀ e ∈ st.top, (is_year_folder e || strStartsWith e.dname ".") = true ∨ e ∈ l) →
    (∀ e ∈ l, validDT e.dmtime) →
    (stage3loop st l).2.2 = true →
    (∀ e ∈ (stage3loop st l).1.top,
      (is_year_folder e || strStartsWith e.dname ".") = true) := by
  intro l
  induction l with
  | nil =>
    intro st _ hcover _ _ e he
    rcases hcover e he with hs | habs
    · exact hs
    · cases habs
  | cons e t ih =>
    intro st hnd hcover hval hcomp
    cases hguard : (is_year_folder e || strStartsWith e.dname ".") with
    | true =>
      rw [stage3loop_cons_skip t (stage3step_skip st e hguard)] at hcomp ⊢
      refine ih st hnd ?_ (fun x hx => hval x (List.mem_cons_of_mem e hx)) hcomp
      intro x hx
      rcases hcover x hx with hs | hm
      · exact Or.inl hs
      · rcases List.mem_cons.mp hm with rfl | hm2
        · exact Or.inl hguard
        · exact Or.inr hm2
    | false =>
      rcases stage3step_shape st e hguard with hcrash | ⟨⟨b, hmv⟩, hfile⟩
      · rw [stage3loop_cons_crash t hcrash] at hcomp
        cases hcomp
      · rw [stage3loop_cons_moved t hmv] at hcomp ⊢
        have hvalid : validDT (get_target_date e) :=
          get_target_date_valid e (hval e (List.mem_cons_self e t))
        have hnd1 : ((movedState st e).top.map (fun x => x.dname)).Nodup := by
          unfold movedState
          exact filter_map_nodup (addYearDir_nodup hnd hfile)
        have hcover1 : ∀ x ∈ (movedState st e).top,
            (is_year_folder x || strStartsWith x.dname ".") = true ∨ x ∈ t := by
          intro x hx
          unfold movedState at hx
          simp only [List.mem_filter] at hx
          obtain ⟨hx1, hx2⟩ := hx
          rcases mem_addYearDir hx1 with hm | rfl
          · rcases hcover x hm with hs | hmm
            · exact Or.inl hs
            · rcases List.mem_cons.mp hmm with rfl | hm2
              · exfalso
                rw [bne_self_eq_false] at hx2
                exact Bool.false_ne_true hx2
              · exact Or.inr hm2
          · left
            rw [Bool.or_eq_true]
            left
            exact yearDir_is_year (get_target_date e) hvalid
        exact ih (movedState st e) hnd1 hcover1
          (fun x hx => hval x (List.mem_cons_of_mem e hx)) hcomp

/-! ## C9: idempotent re-organization -/

/-- C9. Organizing a tree whose every top-level entry is a four-digit
year directory or hidden performs no moves and leaves the state
untouched; consequently, whenever a run completes (on any top level
with distinct names and sane timestamps), a second run over its output
performs no moves: organize is idempotent on its own output. -/
theorem organize_idempotent (st : FS3) :
    ((∀ e ∈ st.top, (is_year_folder e || strStartsWith e.dname ".") = true) →
      stage3_organize st = (st, [], true)) ∧
    ((st.top.map (fun e => e.dname)).Nodup →
      (∀ e ∈ st.top, validDT e.dmtime) →
      (stage3_organize st).2.2 = true →
      stage3_organize (stage3_organize st).1 = ((stage3_organize st).1, [], true)) := by
  constructor
  · intro h
    exact stage3loop_allskip st.top st h
  · intro hnd hval hcomp
    exact stage3loop_allskip _ _
      (stage3loop_post st.top st hnd (fun e he => Or.inr he) hval hcomp)

/-- C9 witness. -/
theorem organize_idempotent_witness :
    stage3_organize orgDone = (orgDone, [], true) :=
  (organize_idempotent orgDone).1 (by decide)

/-! ## C2: collision handling (corrected) -/

/-- C2 counterexample: with the computed destination and its dup
variant both already occupied by files, the organizer moves the entry
onto the dup path and the entry that lived there is gone afterwards —
an existing entry is overwritten, so the claim as stated is false. -/
theorem organize_overwrite_cex :
    lookupP pathDup fsCex.sub = some orgOcc2 ∧
    (pathDup, orgOcc2) ∉ (stage3_organize fsCex).1.sub ∧
    (stage3_organize fsCex).2.1 = [Step3Res.moved pathDup true] := by
  decide

/-- C2 amended. For every organize operation whose computed destination
already exists, the entry is moved to the name with dup inserted before
the extension; no entry already on disk is lost by the move provided
the primary destination or the dup destination is free — when both are
occupied, the occupant of the dup path is overwritten (see the
counterexample). -/
theorem organize_collision_amended (st : FS3) (e : DirEntry)
    (hskip : (is_year_folder e || strStartsWith e.dname ".") = false) :
    (∀ st1 d b, stage3step st e = (st1, Step3Res.moved d b) →
      (lookupP (destRootOf e ++ [e.dname]) st.sub).isSome = true →
      d = destRootOf e ++ [dupNameOf e]) ∧
    ((lookupP (destRootOf e ++ [e.dname]) st.sub = none ∨
      lookupP (destRootOf e ++ [dupNameOf e]) st.sub = none) →
      ∀ st1 r, stage3step st e = (st1, r) → ∀ kv ∈ st.sub, kv ∈ st1.sub) := by
  constructor
  · intro st1 d b hstep hocc
    rcases stage3step_shape st e hskip with hcrash | ⟨⟨b2, hmv⟩, _⟩
    · rw [hstep] at hcrash
      injection hcrash with h1 h2
      cases h2
    · rw [hstep] at hmv
      injection hmv with h1 h2
      injection h2 with hd hb
      rw [hd]
      unfold destFinal
      rw [if_pos hocc]
  · intro hfree st1 r hstep kv hkv
    rcases stage3step_shape st e hskip with hcrash | ⟨⟨b2, hmv⟩, _⟩
    · rw [hstep] at hcrash
      injection hcrash with h1 h2
      subst h1
      exact hkv
    · rw [hstep] at hmv
      injection hmv with h1 h2
      subst h1
      by_cases hocc : (lookupP (destRootOf e ++ [e.dname]) st.sub).isSome = true
      · rcases hfree with hl0 | hld
        · rw [hl0] at hocc
          simp at hocc
        · have hdf : destFinal st e = destRootOf e ++ [dupNameOf e] := by
            unfold destFinal
            rw [if_pos hocc]
          have hne : (kv.1 == destFinal st e) = false := by
            rw [hdf]
            exact lookupP_none hld kv hkv
          exact mem_setP_of_ne hkv hne
      · have hl0 : lookupP (destRootOf e ++ [e.dname]) st.sub = none := by
          cases hl : lookupP (destRootOf e ++ [e.dname]) st.sub with
          | none => rfl
          | some v => exact absurd (by rw [hl]; rfl) hocc
        have hdf : destFinal st e = destRootOf e ++ [e.dname] := by
          unfold destFinal
          rw [if_neg hocc]
        have hne : (kv.1 == destFinal st e) = false := by
          rw [hdf]
          exact lookupP_none hl0 kv hkv
        exact mem_setP_of_ne hkv hne

/-- C2 amended witness. -/
theorem organize_collision_amended_witness :
    (pathMain, orgOcc1) ∈ (stage3step fsAmend orgItem).1.sub :=
  (organize_collision_amended fsAmend orgItem (by decide)).2 (Or.inr (by decide))
    (stage3step fsAmend orgItem).1 (stage3step fsAmend orgItem).2 rfl
    (pathMain, orgOcc1) (by decide)

/-! ## C10: the zip rewrite of stage 1 -/

theorem mk_toList (s : String) : String.mk s.toList = s := rfl

theorem splitChar_ne_nil (sep : Char) (cs : List Char) : splitChar sep cs ≠ [] := by
  cases cs with
  | nil => simp [splitChar]
  | cons c rest =>
    simp only [splitChar]
    split <;> simp

theorem splitChar_no_sep (sep : Char) : ∀ cs : List Char, sep ∉ cs → splitChar sep cs = [cs] := by
  intro cs
  induction cs with
  | nil => intro _; rfl
  | cons c rest ih =>
    intro h
    have hne : ¬ c = sep := by
      intro hcs
      apply h
      rw [← hcs]
      exact List.mem_cons_self c rest
    have hrest : sep ∉ rest := fun hm => h (List.mem_cons_of_mem c hm)
    have hcb : (c == sep) = false := beq_eq_false_iff_ne.mpr hne
    simp [splitChar, ih hrest, hcb]

theorem splitChar_seg (sep : Char) : ∀ cs seg : List Char, seg ∈ splitChar sep cs → sep ∉ seg := by
  intro cs
  induction cs with
  | nil =>
    intro seg hm
    have h2 : seg = [] := by simpa [splitChar] using hm
    rw [h2]
    exact List.not_mem_nil sep
  | cons c rest ih =>
    intro seg hm
    simp only [splitChar] at hm
    by_cases hc : (c == sep) = true
    · rw [if_pos hc] at hm
      rcases List.mem_cons.mp hm with h1 | h1
      · rw [h1]; exact List.not_mem_nil sep
      · exact ih seg h1
    · rw [if_neg hc] at hm
      have hne : sep ≠ c := fun hcs => hc (beq_iff_eq.mpr hcs.symm)
      rcases List.mem_cons.mp hm with h1 | h1
      · subst h1
        intro hmem
        rcases List.mem_cons.mp hmem with h2 | h2
        · exact hne h2
        · cases hsp : splitChar sep rest with
          | nil => exact absurd hsp (splitChar_ne_nil sep rest)
          | cons s0 stail =>
            rw [hsp] at h2
            exact ih s0 (by rw [hsp]; exact List.mem_cons_self s0 stail) h2
      · have h3 : seg ∈ splitChar sep rest := by
          cases hsp : splitChar sep rest with
          | nil =>
            rw [hsp] at h1
            exact absurd h1 (List.not_mem_nil seg)
          | cons s0 stail =>
            rw [hsp] at h1
            exact List.mem_cons_of_mem s0 h1
        exact ih seg h3

theorem getLastD_mem_or {α : Type} : ∀ (l : List α) (d : α), l.getLastD d ∈ l ∨ l.getLastD d = d := by
  intro l
  induction l with
  | nil => intro d; right; rfl
  | cons a t ih =>
    intro d
    rw [List.getLastD_cons]
    rcases ih a with h | h
    · left; exact List.mem_cons_of_mem a h
    · left; rw [h]; exact List.mem_cons_self a t

theorem noSlash_component (s c : String) (h : c ∈ pathComponents s) : '/' ∉ c.toList := by
  unfold pathComponents at h
  have h2 := List.mem_of_mem_filter h
  rcases List.mem_map.mp h2 with ⟨seg, hseg, hmk⟩
  have h3 := splitChar_seg '/' s.toList seg hseg
  rw [← hmk]
  exact h3

theorem noSlash_lastComponent (s : String) : '/' ∉ (lastComponent s).toList := by
  unfold lastComponent
  rcases getLastD_mem_or (pathComponents s) "" with h | h
  · exact noSlash_component s _ h
  · rw [h]
    exact List.not_mem_nil '/'

theorem noSlash_pstem (s : String) : '/' ∉ (pstem s).toList := by
  unfold pstem
  intro hm
  exact noSlash_lastComponent s (List.take_subset _ _ hm)

theorem lastDot_append : ∀ x r : List Char, lastDotIdx r = none →
    lastDotIdx (x ++ '.' :: r) = some x.length := by
  intro x r hr
  induction x with
  | nil => simp [lastDotIdx, hr]
  | cons c x2 ih => simp [lastDotIdx, ih]

theorem psuffix_withSuffixZip (s : String) (h : pstem s ≠ "") :
    psuffix (withSuffixZip s) = ".zip" := by
  have hx : (pstem s).toList ≠ [] := by
    intro habs
    apply h
    rw [← mk_toList (pstem s), habs]
  have htl : (withSuffixZip s).toList = (pstem s).toList ++ '.' :: ['z', 'i', 'p'] := rfl
  have hsep : '/' ∉ (withSuffixZip s).toList := by
    rw [htl]
    intro hm
    rcases List.mem_append.mp hm with hm1 | hm1
    · exact noSlash_pstem s hm1
    · exact absurd hm1 (by decide)
  have ht1 : withSuffixZip s ≠ "" := by
    intro habs
    have h2 := congrArg String.toList habs
    rw [htl] at h2
    simp at h2
  have ht2 : withSuffixZip s ≠ "." := by
    intro habs
    have h2 := congrArg String.toList habs
    rw [htl] at h2
    have h3 := congrArg List.length h2
    simp [List.length_append] at h3
  have hcomp : pathComponents (withSuffixZip s) = [withSuffixZip s] := by
    unfold pathComponents
    rw [splitChar_no_sep '/' _ hsep]
    simp [mk_toList, ht1, ht2]
  have hlast : lastComponent (withSuffixZip s) = withSuffixZip s := by
    unfold lastComponent
    rw [hcomp]
    rfl
  have hdot : lastDotIdx (withSuffixZip s).toList = some (pstem s).toList.length := by
    rw [htl]
    exact lastDot_append _ _ (by decide)
  unfold psuffix
  rw [hlast]
  simp only [hdot]
  rw [htl]
  have hcond : (0 < (pstem s).toList.length ∧
      (pstem s).toList.length + 1 < ((pstem s).toList ++ '.' :: ['z', 'i', 'p']).length) := by
    have h0 : 0 < (pstem s).toList.length := List.length_pos.mpr hx
    have h4 : ('.' :: ['z', 'i', 'p']).length = 4 := rfl
    rw [List.length_append, h4]
    omega
  rw [if_pos (by rw [Bool.and_eq_true]; exact ⟨decide_eq_true hcond.1, decide_eq_true hcond.2⟩)]
  rw [List.drop_left]

theorem rewriteLoop_sound (dt : DateTime) (ri : Nat) (allE : List ZEntry) :
    ∀ (es : List ZEntry) (k : Nat) (outE : List ZEntry),
      rewriteLoop dt ri allE k es = some outE →
      outE = ((List.enumFrom k es).filter (fun p => !zIsDir p.2)).map
        (fun p => ZEntry.mk (rewriteName dt ri p.1 p.2.ename) (zread allE p.2.ename)) := by
  intro es
  induction es with
  | nil =>
    intro k outE h
    have h2 : ([] : List ZEntry) = outE := Option.some.inj h
    simp [List.enumFrom, ← h2]
  | cons e t ih =>
    intro k outE h
    unfold rewriteLoop at h
    cases hd : zIsDir e with
    | true =>
      simp only [hd] at h
      rw [ih (k + 1) outE h]
      simp [List.enumFrom, hd]
    | false =>
      simp only [hd] at h
      cases hz : zread allE e.ename with
      | none =>
        rw [hz] at h
        exact absurd h (by simp)
      | some data =>
        simp only [hz] at h
        rcases Option.map_eq_some'.mp h with ⟨rest, hrest, hout⟩
        rw [ih (k + 1) rest hrest] at hout
        rw [← hout]
        simp [List.enumFrom, hd, hz]

theorem rewriteLoop_total (dt : DateTime) (ri : Nat) (allE : List ZEntry) :
    ∀ (es : List ZEntry) (k : Nat),
      (∀ e ∈ es, zIsDir e = false → (zread allE e.ename).isSome = true) →
      (rewriteLoop dt ri allE k es).isSome = true := by
  intro es
  induction es with
  | nil => intro k _; rfl
  | cons e t ih =>
    intro k hr
    unfold rewriteLoop
    by_cases hd : zIsDir e = true
    · rw [if_pos hd]
      exact ih (k + 1) (fun x hx hxd => hr x (List.mem_cons_of_mem e hx) hxd)
    · rw [if_neg hd]
      have hd2 : zIsDir e = false := by
        cases hq : zIsDir e with
        | true => exact absurd hq hd
        | false => rfl
      have h2 := hr e (List.mem_cons_self e t) hd2
      cases hz : zread allE e.ename with
      | none =>
        rw [hz] at h2
        exact absurd h2 (by simp)
      | some data =>
        have h3 := ih (k + 1) (fun x hx hxd => hr x (List.mem_cons_of_mem e hx) hxd)
        cases hro : rewriteLoop dt ri allE (k + 1) t with
        | none =>
          rw [hro] at h3
          exact absurd h3 (by simp)
        | some rest => rfl

theorem rewrite_zip_readable (dt : DateTime) (ri : Nat) (entries : List ZEntry)
    (hr : ∀ e ∈ entries, zIsDir e = false → (zread entries e.ename).isSome = true) :
    rewrite_zip_in_place dt ri entries = some (rewriteSpec dt ri entries) := by
  have ht := rewriteLoop_total dt ri entries entries 1 hr
  cases ho : rewriteLoop dt ri entries 1 entries with
  | none =>
    rw [ho] at ht
    exact absurd ht (by simp)
  | some outE =>
    have hs := rewriteLoop_sound dt ri entries entries 1 outE ho
    unfold rewrite_zip_in_place rewriteSpec
    rw [ho, hs]

/-- The zip rewrite renames an entry whose stem is empty with the file
placeholder, not with the original stem that the claim template
prescribes, so the rewritten entry differs from the claim's rename
template. -/
theorem rewrite_zip_claim_cex :
    rewrite_zip_in_place dtA 1 [⟨"", some [7]⟩] =
      some [⟨rewriteName dtA 1 1 "", some [7]⟩] ∧
    rewriteName dtA 1 1 "" ≠ claimRewriteName dtA 1 1 "" ∧
    rewrite_zip_in_place dtA 1 [⟨"", some [7]⟩] ≠
      some [⟨claimRewriteName dtA 1 1 "", some [7]⟩] := by decide

/-- C10 (amended): when every non-directory member of the archive is
readable, the rewrite produces exactly the non-directory entries in
order, each renamed to the timestamp, the original stem or the file
placeholder when that stem is empty, the row index, the running
1-based entry index counted over all entries, and the original suffix,
with the content the archive stores under the original name; and on
the stage-1 path for a fetched zip, the written file carries the
resolved timestamp as its modification time, the rewritten archive as
its content, and a name whose suffix lowercases to zip whenever the
built filename has a nonempty stem. -/
theorem stage1_zip_rewrite_amended :
    (∀ (dt : DateTime) (ri : Nat) (entries : List ZEntry),
      (∀ e ∈ entries, zIsDir e = false → (zread entries e.ename).isSome = true) →
      rewrite_zip_in_place dt ri entries = some (rewriteSpec dt ri entries)) ∧
    (∀ (now : DateTime) (i : Nat) (r : Row1) (u : String) (es : List ZEntry) (f : DFile),
      r.url = some u → r.blob = some (Blob.zip es) →
      processRow now i r = RowResult.ok f →
      f.mtime = (parse_date now r.dateText).1 ∧
      f.blob = Blob.zip (rewriteSpec (parse_date now r.dateText).1 i es) ∧
      (pstem (stage1Filename now i r u) ≠ "" →
        strLower (psuffix f.fname) = ".zip")) := by
  constructor
  · exact fun dt ri entries hr => rewrite_zip_readable dt ri entries hr
  · intro now i r u es f hu hb h
    unfold processRow at h
    simp only [hu] at h
    simp only [hb] at h
    unfold processZipBlob at h
    cases hrw : rewrite_zip_in_place (parse_date now r.dateText).1 i es with
    | none =>
      simp only [hrw] at h
      exact absurd h (by simp)
    | some es2 =>
      simp only [hrw] at h
      injection h with h2
      have hfn : f.fname =
          (if strLower (psuffix (stage1Filename now i r u)) != ".zip" then
            withSuffixZip (stage1Filename now i r u)
          else stage1Filename now i r u) := by rw [← h2]
      have hmt : f.mtime = (parse_date now r.dateText).1 := by rw [← h2]
      have hbl : f.blob = Blob.zip es2 := by rw [← h2]
      refine ⟨hmt, ?_, ?_⟩
      · have hs := rewriteLoop_sound (parse_date now r.dateText).1 i es es 1 es2 hrw
        rw [hbl]
        unfold rewriteSpec
        rw [hs]
      · intro hstem
        rw [hfn]
        by_cases hc : (strLower (psuffix (stage1Filename now i r u)) != ".zip") = true
        · rw [if_pos hc, psuffix_withSuffixZip _ hstem]
          rfl
        · rw [if_neg hc]
          simp only [bne_iff_ne, ne_eq, not_not] at hc
          exact hc

/-- C10 amended witness. -/
theorem stage1_zip_rewrite_amended_witness :
    rewrite_zip_in_place dtA 1 [⟨"a.jpg", some [1, 2]⟩] =
      some (rewriteSpec dtA 1 [⟨"a.jpg", some [1, 2]⟩]) ∧
    fZip.mtime = (parse_date dtNow rowZip.dateText).1 ∧
    fZip.blob = Blob.zip (rewriteSpec (parse_date dtNow rowZip.dateText).1 1
      [⟨"a.jpg", some [1, 2]⟩]) ∧
    strLower (psuffix fZip.fname) = ".zip" := by
  have hh := stage1_zip_rewrite_amended.2 dtNow 1 rowZip "http://x/dl"
    [⟨"a.jpg", some [1, 2]⟩] fZip rfl rfl (by decide)
  exact ⟨stage1_zip_rewrite_amended.1 dtA 1 [⟨"a.jpg", some [1, 2]⟩] (by decide),
    hh.1, hh.2.1, hh.2.2 (by decide)⟩

end MD
